import Mathlib

/-!
# Verification of the aistudio DOCX template-tag engine

A shallow embedding, in Lean 4, of the core string/archive algorithms of the
repository (src/core/DocxManager.ts, TagNormalizer.ts, TagDetector.ts,
DocxAppender.ts), together with theorems settling the specification claims.

JavaScript strings are modelled as `List Char`; a DOCX package (a PizZip
archive) is modelled as an association list from part names to part contents.
JavaScript regular-expression operations used by the source are embedded as
explicit scanners with the exact backtracking semantics of the concrete
patterns that the source constructs.  Functions whose JS loop advances by a
computed amount take an explicit fuel argument (instantiated with the input
length plus one by their wrappers) so that every definition is structurally
recursive and evaluates by `decide`/`rfl`.
-/

namespace AiStudio

/-- JavaScript strings, modelled as lists of characters. -/
abbrev Str := List Char

/-- Whitespace recognised by JavaScript `String.prototype.trim`
(ASCII whitespace plus no-break space and BOM). -/
def jsIsWs (c : Char) : Bool :=
  c = ' ' || c = '\t' || c = '\n' || c = '\r' || c = '\x0b' || c = '\x0c' ||
  c = ' ' || c = '﻿'

/-- JavaScript `String.prototype.trim`: strip whitespace from both ends. -/
def jsTrim (s : Str) : Str :=
  ((s.dropWhile jsIsWs).reverse.dropWhile jsIsWs).reverse

/-- Names of parts inside the package archive. -/
abbrev PartName := List Char

/-- A DOCX package: a PizZip archive, modelled as an association list from
part names to part contents.  Part names are unique (PizZip keys files by
name; `zipSet` overwrites in place). -/
abbrev Zip := List (PartName × Str)

/-- Look up a part by name (PizZip `zip.file(name)` read). -/
def zipFile (z : Zip) (n : PartName) : Option Str :=
  match z with
  | [] => none
  | (m, c) :: rest => if m = n then some c else zipFile rest n

/-- Write a part (PizZip `zip.file(name, content)`): overwrite in place when
the name exists, append otherwise. -/
def zipSet (z : Zip) (n : PartName) (c : Str) : Zip :=
  match z with
  | [] => [(n, c)]
  | (m, c') :: rest => if m = n then (n, c) :: rest else (m, c') :: zipSet rest n c

/-! ## Generic JavaScript global-regex machinery

A matcher `M : Str → Option (Nat × α)` tries the concrete pattern at the head
of its argument and returns the match length together with a payload (captured
groups).  `findFirstM` is the leftmost-match search, `scanM` the repeated
global scan of `String.prototype.replace` with a global regex (including the
advance-by-one rule after an empty match), and `rebuild` the output assembly
with the callback receiving the matched text, the payload, and the running
zero-based match index. -/

/-- Leftmost match: try the matcher at every suffix, left to right.  Returns
(gap length, match length, payload). -/
def findFirstM (M : Str → Option (Nat × α)) : Str → Option (Nat × Nat × α)
  | [] =>
    match M [] with
    | some (n, a) => some (0, n, a)
    | none => none
  | c :: rest =>
    match M (c :: rest) with
    | some (n, a) => some (0, n, a)
    | none =>
      match findFirstM M rest with
      | some (g, n, a) => some (g + 1, n, a)
      | none => none

/-- Prepend a character to the first gap of a scan result (used for the
advance-by-one rule after an empty match). -/
def consSegChar (c : Char) : List (Str × Str × α) × Str → List (Str × Str × α) × Str
  | ([], tl) => ([], c :: tl)
  | ((g, m, a) :: segs, tl) => ((c :: g, m, a) :: segs, tl)

/-- The global scan: the list of (gap before match, matched text, payload)
segments, in document order, plus the unmatched tail.  Fueled so that the
definition is structurally recursive; `fuel = length + 1` always suffices
for matchers that never overshoot the input. -/
def scanM (M : Str → Option (Nat × α)) : Nat → Str → List (Str × Str × α) × Str
  | 0, t => ([], t)
  | fuel + 1, t =>
    match findFirstM M t with
    | none => ([], t)
    | some (g, n, a) =>
      let gap := t.take g
      let m := (t.drop g).take n
      let rest := t.drop (g + n)
      if n = 0 then
        match rest with
        | [] => ([(gap, [], a)], [])
        | c :: rest' =>
          let r := scanM M fuel rest'
          ((gap, [], a) :: (consSegChar c r).1, (consSegChar c r).2)
      else
        let r := scanM M fuel rest
        ((gap, m, a) :: r.1, r.2)

/-- Run the global scan with sufficient fuel. -/
def runScan (M : Str → Option (Nat × α)) (t : Str) : List (Str × Str × α) × Str :=
  scanM M (t.length + 1) t

/-- Reassemble a scan result, applying `f` to each matched segment;
`f` receives the matched text, the payload and the zero-based match index
(the JS callback with the running match counter). -/
def rebuild (f : Str → α → Nat → Str) : List (Str × Str × α) → Nat → Str → Str
  | [], _, tl => tl
  | (g, m, a) :: segs, i, tl => g ++ f m a i ++ rebuild f segs (i + 1) tl

/-- `String.prototype.replace` with a global regex and callback `f`. -/
def jsReplace (M : Str → Option (Nat × α)) (f : Str → α → Nat → Str) (t : Str) : Str :=
  let r := runScan M t
  rebuild f r.1 0 r.2

/-- Glue a scan result back together without modification. -/
def glueSegs : List (Str × Str × α) × Str → Str
  | (segs, tl) => segs.foldr (fun s acc => s.1 ++ s.2.1 ++ acc) tl

/-- First occurrence split: `splitOnFirst pat s = some (before, after)` iff
`pat` occurs in `s`, with `s = before ++ pat ++ after` and `before` minimal
(JS `String.prototype.replace` with a plain-string pattern, and the lazy
search for a closing delimiter). -/
def splitOnFirst (pat : Str) : Str → Option (Str × Str)
  | [] => if pat.isPrefixOf ([] : Str) then some ([], []) else none
  | c :: rest =>
    if pat.isPrefixOf (c :: rest) then some ([], (c :: rest).drop pat.length)
    else
      match splitOnFirst pat rest with
      | some (b, a) => some (c :: b, a)
      | none => none

/-- The greatest index at which `pat` occurs (JS `String.prototype.lastIndexOf`):
prefer an occurrence further right, fall back to an occurrence here. -/
def lastOccAux (pat : Str) : Str → Option Nat
  | [] => if pat.isPrefixOf ([] : Str) then some 0 else none
  | c :: rest =>
    match lastOccAux pat rest with
    | some i => some (i + 1)
    | none => if pat.isPrefixOf (c :: rest) then some 0 else none

/-- Split at the last occurrence of `pat` (JS `String.prototype.lastIndexOf`
followed by the two `substring` calls): `some (before, after)` with
`s = before ++ pat ++ after` and `before` maximal. -/
def lastIndexOfSplit (pat : Str) (s : Str) : Option (Str × Str) :=
  match lastOccAux pat s with
  | some i => some (s.take i, s.drop (i + pat.length))
  | none => none

/-- `true` when the string contains no `<` immediately followed by `/`
(hence no occurrence of any closing XML tag can start inside it). -/
def noLtSlash : Str → Bool
  | [] => true
  | c :: rest => !(c = '<' && rest.head? = some '/') && noLtSlash rest

/-! ## The markup-tolerant search pattern

`DocxManager` builds the pattern `c₀(<[^>]+>)*c₁(<[^>]+>)*…cₙ₋₁` from the
characters of the (escaped) search text: literal characters with any number of
complete XML tags permitted between adjacent characters.  `consumeTag` is the
unique match of `<[^>]+>` at the head of a string; `matchSep` implements the
greedy backtracking of the star (more tags preferred, failure of the whole
continuation backtracks to fewer tags), `matchPat` anchors the first literal
character. -/

/-- Match `<[^>]+>` at the head: `<`, one or more non-`>` characters, `>`.
Returns the consumed tag text and the remainder. -/
def consumeTag : Str → Option (Str × Str)
  | [] => none
  | c :: rest =>
    if c = '<' then
      match rest.dropWhile (· != '>') with
      | d :: after =>
        if d = '>' then
          if rest.takeWhile (· != '>') = [] then none
          else some ('<' :: (rest.takeWhile (· != '>') ++ ['>']), after)
        else none
      | [] => none
    else none

/-- Greedy backtracking match of `(<[^>]+>)*c₀(<[^>]+>)*c₁…` (a separator-led
tail of the search pattern): at each star position the matcher prefers to
consume one more tag, falling back to matching the next literal character only
when the whole continuation fails — the exact backtracking order of the JS
regex engine.  Fueled; `fuel = length + 1` suffices. -/
def matchSep : Nat → List Char → Str → Option (Str × Str)
  | 0, _, _ => none
  | _ + 1, [], t => some ([], t)
  | fuel + 1, c :: cs, t =>
    match consumeTag t with
    | some (tag, t') =>
      match matchSep fuel (c :: cs) t' with
      | some (m, r) => some (tag ++ m, r)
      | none =>
        match t with
        | x :: xs =>
          if x = c then
            match matchSep fuel cs xs with
            | some (m, r) => some (x :: m, r)
            | none => none
          else none
        | [] => none
    | none =>
      match t with
      | x :: xs =>
        if x = c then
          match matchSep fuel cs xs with
          | some (m, r) => some (x :: m, r)
          | none => none
        else none
      | [] => none

/-- Match the full search pattern at the head of `t`: the first literal
character, then the separator-led tail.  The empty search text yields the
empty pattern, which matches the empty string (as in JS). -/
def matchPat : List Char → Str → Option (Str × Str)
  | [], t => some ([], t)
  | c :: cs, t =>
    match t with
    | x :: xs =>
      if x = c then
        match matchSep (xs.length + 1) cs xs with
        | some (m, r) => some (x :: m, r)
        | none => none
      else none
    | [] => none

/-- The matcher driving the global scan of `replaceSpecificOccurrences`
(case-sensitive pass) and `scanText`. -/
def searchMatcher (search : List Char) (t : Str) : Option (Nat × Unit) :=
  (matchPat search t).map (fun p => (p.1.length, ()))

/-! ## TagNormalizer (src/core/TagNormalizer.ts) -/

namespace TagNormalizer

/-- The fixed list of literal prefixes of the noise patterns
`/<w:proofErr[^>]*\/>/g`, … of `removeNoiseTags`. -/
def noiseLiterals : List Str :=
  ["<w:proofErr", "<w:noProof", "<w:lang", "<w:bookmarkStart", "<w:bookmarkEnd",
   "<w:commentRangeStart", "<w:commentRangeEnd", "<w:permStart", "<w:permEnd",
   "<w:moveFromRangeStart", "<w:moveFromRangeEnd", "<w:moveToRangeStart",
   "<w:moveToRangeEnd", "<w:rsid"].map String.toList

/-- Matcher for one noise pattern `lit[^>]*\/>`: the literal prefix, the
maximal run of non-`>` characters (which, after backtracking, has to end in
`/`), then `>`. -/
def noiseMatcher (lit : Str) (t : Str) : Option (Nat × Unit) :=
  if lit.isPrefixOf t then
    let rest := t.drop lit.length
    let run := rest.takeWhile (· != '>')
    match run.getLast? with
    | some '/' =>
      if (rest.drop run.length).head? = some '>' then
        some (lit.length + run.length + 1, ())
      else none
    | _ => none
  else none

/-- `removeNoiseTags`: apply each noise pattern in order, each as a global
replace by the empty string. -/
def removeNoiseTags (xml : Str) : Str :=
  noiseLiterals.foldl (fun acc lit => jsReplace (noiseMatcher lit) (fun _ _ _ => []) acc) xml

/-- After the mandatory tag group of the repair pattern: the lazy padding
`([^}{]*?)` followed by the closing single marker.  Returns (consumed length
including the marker, the padding). -/
def repairAfterTags (marker : Char) (t : Str) : Option (Nat × Str) :=
  let run := t.takeWhile (fun c => !(c == '{') && !(c == '}'))
  match (t.drop run.length).head? with
  | some c => if c = marker then some (run.length + 1, run) else none
  | none => none

/-- The `(<[^>]+>)+([^}{]*?)(marker)` tail of the repair pattern: at least one
tag, greedily as many as possible, backtracking to fewer tags when the
continuation fails.  Returns (consumed length, second padding). -/
def repairTagsPart (marker : Char) : Nat → Str → Option (Nat × Str)
  | 0, _ => none
  | fuel + 1, t =>
    match consumeTag t with
    | none => none
    | some (tag, t') =>
      match repairTagsPart marker fuel t' with
      | some (n, p2) => some (tag.length + n, p2)
      | none =>
        match repairAfterTags marker t' with
        | some (n, p2) => some (tag.length + n, p2)
        | none => none

/-- The lazy first padding `([^}{]*?)` of the repair pattern: try the tag part
with no padding first, then extend the padding one non-brace character at a
time.  Returns (first padding, consumed length after the padding, second
padding). -/
def repairP1 (marker : Char) (fuel : Nat) : Str → Option (Str × Nat × Str)
  | [] =>
    match repairTagsPart marker fuel [] with
    | some (n, p2) => some ([], n, p2)
    | none => none
  | c :: rest =>
    match repairTagsPart marker fuel (c :: rest) with
    | some (n, p2) => some ([], n, p2)
    | none =>
      if !(c == '{') && !(c == '}') then
        match repairP1 marker fuel rest with
        | some (p1, n, p2) => some (c :: p1, n, p2)
        | none => none
      else none

/-- Matcher for the split-delimiter repair pattern
`(marker)([^}{]*?)(<[^>]+>)+([^}{]*?)(marker)` of `repairSplitDelimiters`.
Payload: the two padding groups, inspected by the replace callback. -/
def repairMatcher (marker : Char) (t : Str) : Option (Nat × (Str × Str)) :=
  match t with
  | c :: rest =>
    if c = marker then
      match repairP1 marker (rest.length + 1) rest with
      | some (p1, n, p2) => some (1 + p1.length + n, (p1, p2))
      | none => none
    else none
  | [] => none

/-- `repairSplitDelimiters`: collapse `{ …tags… {` to `{{` when both paddings
are whitespace-only, then likewise for `}`. -/
def repairSplitDelimiters (xml : Str) : Str :=
  let openPass := jsReplace (repairMatcher '{')
    (fun m pads _ => if jsTrim pads.1 = [] ∧ jsTrim pads.2 = [] then ['{', '{'] else m) xml
  jsReplace (repairMatcher '}')
    (fun m pads _ => if jsTrim pads.1 = [] ∧ jsTrim pads.2 = [] then ['}', '}'] else m) openPass

/-- `removeDuplicateDelimiters` is an explicit no-op in the source. -/
def removeDuplicateDelimiters (xml : Str) : Str := xml

/-- Matcher for one complete XML tag `<[^>]+>` (the tag-stripping regex). -/
def xmlTagMatcher (t : Str) : Option (Nat × Unit) :=
  match t with
  | '<' :: rest =>
    let run := rest.takeWhile (· != '>')
    if run = [] then none
    else if (rest.drop run.length).head? = some '>' then some (run.length + 2, ()) else none
  | _ => none

/-- `content.replace(/<[^>]+>/g, "")`. -/
def stripXmlTags (s : Str) : Str :=
  jsReplace xmlTagMatcher (fun _ _ _ => []) s

/-- `content.replace(/{/g, '').replace(/}/g, '')`. -/
def stripBraces (s : Str) : Str :=
  (s.filter (· != '{')).filter (· != '}')

/-- Matcher for the lazy consolidation pattern `{{([\s\S]*?)}}`: a double open
marker, then the shortest content reaching a double close marker.  Payload:
the inner content. -/
def consolidateMatcher (t : Str) : Option (Nat × Str) :=
  match t with
  | '{' :: '{' :: rest =>
    match splitOnFirst ['}', '}'] rest with
    | some (content, _) => some (2 + content.length + 2, content)
    | none => none
  | _ => none

/-- `consolidateTags`: rewrite every lazy `{{…}}` span, stripping all complete
XML tags and then all single braces from the inner content (no trimming). -/
def consolidateTags (xml : Str) : Str :=
  jsReplace consolidateMatcher
    (fun _ content _ => '{' :: '{' :: (stripBraces (stripXmlTags content) ++ ['}', '}'])) xml

/-- `TagNormalizer.normalize`: noise removal always; split-delimiter repair,
the no-op duplicate removal, and tag consolidation only in double-marker
mode. -/
def normalize (xmlContent : Str) (isDoubleMode : Bool) : Str :=
  let xml := removeNoiseTags xmlContent
  if isDoubleMode then
    consolidateTags (removeDuplicateDelimiters (repairSplitDelimiters xml))
  else xml

end TagNormalizer

/-! ## TagDetector (src/core/TagDetector.ts) -/

/-- A detected tag (src/types.ts `DocxTag`). -/
structure DocxTag where
  id : Str
  raw : Str
  name : Str
deriving DecidableEq, Repr

namespace TagDetector

/-- The capture group `\s*([^…]+)` with a greedy leading `\s*`: the group gets
the run minus its whitespace prefix, except that when the run is all
whitespace the `+` forces the group to keep the last character. -/
def captureAfterWs (run : Str) : Str :=
  run.drop (min (run.takeWhile jsIsWs).length (run.length - 1))

/-- Matcher for `DOUBLE_BRACE_REGEX = /{{\s*([^}]+)\s*}}/g`.  Payload: the
captured group. -/
def doubleBraceMatcher (t : Str) : Option (Nat × Str) :=
  match t with
  | '{' :: '{' :: rest =>
    let run := rest.takeWhile (· != '}')
    if run = [] then none
    else if (rest.drop run.length).take 2 = ['}', '}'] then
      some (2 + run.length + 2, captureAfterWs run)
    else none
  | _ => none

/-- Matcher for `SINGLE_BRACE_REGEX = /(?<!{){\s*([^{}]+)\s*}(?!})/g` at one
position, given the character preceding the position (for the lookbehind). -/
def singleBraceMatchAt (prev : Option Char) (t : Str) : Option (Nat × Str) :=
  match t with
  | '{' :: rest =>
    if prev = some '{' then none
    else
      let run := rest.takeWhile (fun c => !(c == '{') && !(c == '}'))
      if run = [] then none
      else
        match rest.drop run.length with
        | '}' :: tail =>
          if tail.head? = some '}' then none
          else some (1 + run.length + 1, captureAfterWs run)
        | _ => none
  | _ => none

/-- The `exec` loop over the single-brace regex: list of (raw match, capture)
pairs in document order.  `prev` tracks the character before the current
position for the lookbehind; every match ends in `}`. -/
def scanSingle : Nat → Option Char → Str → List (Str × Str)
  | 0, _, _ => []
  | _ + 1, _, [] => []
  | fuel + 1, prev, c :: rest =>
    match singleBraceMatchAt prev (c :: rest) with
    | some (n, cap) => ((c :: rest).take n, cap) :: scanSingle fuel (some '}') ((c :: rest).drop n)
    | none => scanSingle fuel (some c) rest

/-- `TagDetector.addTag`: trim the captured name, skip empty or already-seen
names, otherwise push `{id := cleanName, raw, name := cleanName}`. -/
def addTag (raw : Str) (name : Str) (st : List DocxTag × List Str) : List DocxTag × List Str :=
  let cleanName := jsTrim name
  if cleanName ≠ [] ∧ ¬ st.2.contains cleanName then
    (st.1 ++ [⟨cleanName, raw, cleanName⟩], st.2 ++ [cleanName])
  else st

/-- Modelled from the spec of the platform: the comparator
`a.name.localeCompare(b.name)` used by `findTags`.  ECMA-262 leaves
`localeCompare` implementation-defined; browsers implement the ECMA-402
default collator (CLDR root collation), which on the Basic Latin range
compares case-folded characters first and breaks ties with
lowercase-before-uppercase.  This model restricts that collation to Basic
Latin. -/
def localeLowerNat (c : Char) : Nat :=
  if 'A' ≤ c ∧ c ≤ 'Z' then c.toNat + 32 else c.toNat

/-- Tertiary weight of the modelled root collation: uppercase after
lowercase. -/
def localeCaseNat (c : Char) : Nat :=
  if 'A' ≤ c ∧ c ≤ 'Z' then 1 else 0

/-- Lexicographic comparison of weight lists. -/
def cmpNatList : List Nat → List Nat → Ordering
  | [], [] => .eq
  | [], _ :: _ => .lt
  | _ :: _, [] => .gt
  | a :: as, b :: bs => if a < b then .lt else if b < a then .gt else cmpNatList as bs

/-- The modelled `localeCompare` (see `localeLowerNat`). -/
def localeCompare (a b : Str) : Ordering :=
  match cmpNatList (a.map localeLowerNat) (b.map localeLowerNat) with
  | .eq => cmpNatList (a.map localeCaseNat) (b.map localeCaseNat)
  | o => o

/-- Stable insertion into a sorted list (JS `Array.prototype.sort` is
stable): skip strictly smaller elements, insert before ties. -/
def insertTag (x : DocxTag) : List DocxTag → List DocxTag
  | [] => [x]
  | y :: rest =>
    if localeCompare y.name x.name = .lt then y :: insertTag x rest else x :: y :: rest

/-- Stable sort by `localeCompare` on names. -/
def sortTags : List DocxTag → List DocxTag
  | [] => []
  | x :: rest => insertTag x (sortTags rest)

/-- `TagDetector.findTags`: scan for double-brace tags; only when none are
found, scan for single-brace tags (filtered by length and line breaks);
deduplicate by trimmed name keeping the first raw form; sort by
`localeCompare` on names. -/
def findTags (fullText : Str) : List DocxTag :=
  let dbl := (runScan doubleBraceMatcher fullText).1.map (fun s => (s.2.1, s.2.2))
  let st1 := dbl.foldl (fun st p => addTag p.1 p.2 st) ([], [])
  let st2 :=
    if dbl.isEmpty then
      (scanSingle (fullText.length + 1) none fullText).foldl (fun st p =>
        let name := jsTrim p.2
        if name.length < 50 ∧ ¬ name.contains '\n' then addTag p.1 name st else st) st1
    else st1
  sortTags st2.1

/-- The (raw, name) argument pairs `findTags` feeds to `addTag`, in scan
order: the double-brace scan's pairs when any exist, otherwise the
single-brace scan's pairs with the name trimmed, filtered by the length-50
and line-break guards. -/
def effectivePairs (t : Str) : List (Str × Str) :=
  let dbl := (runScan doubleBraceMatcher t).1.map (fun s => (s.2.1, s.2.2))
  if dbl.isEmpty then
    ((scanSingle (t.length + 1) none t).map (fun p => (p.1, jsTrim p.2))).filter
      (fun p => decide (p.2.length < 50) && !p.2.contains '\n')
  else dbl

end TagDetector

/-! ## DocxManager (src/core/DocxManager.ts) -/

/-- The path of the main text part. -/
def docPath : PartName := "word/document.xml".toList

/-- The delimiter configuration `{ start, end }` (the `end` field is renamed
`stop`, `end` being reserved in Lean). -/
structure DelimiterConfig where
  start : Str
  stop : Str
deriving DecidableEq, Repr

/-- The double-marker convention `{ start: '{{', end: '}}' }`. -/
def delimiterDouble : DelimiterConfig := ⟨['{', '{'], ['}', '}']⟩

/-- The single-marker convention `{ start: '{', end: '}' }`. -/
def delimiterSingle : DelimiterConfig := ⟨['{'], ['}']⟩

/-- `(xml.match(/{{/g) || []).length`: the number of non-overlapping
occurrences of the double open marker, scanning left to right. -/
def countDoubleOpen : Str → Nat
  | '{' :: '{' :: rest => countDoubleOpen rest + 1
  | _ :: rest => countDoubleOpen rest
  | [] => 0

/-- `DocxManager.detectDelimiters`: `none` models a package buffer that
cannot be opened (the `catch` branch); a missing main text part yields the
empty string (`?.asText() || ""`). -/
def detectDelimiters (pkg : Option Zip) : DelimiterConfig :=
  match pkg with
  | none => delimiterDouble
  | some z =>
    let xml := (zipFile z docPath).getD []
    let doubleOpen := countDoubleOpen xml
    let singleOpen := xml.count '{'
    if doubleOpen = 0 ∧ singleOpen > 0 then delimiterSingle else delimiterDouble

/-- `DocxManager.healDocumentXml`: heal the main text part in place; return
the input unchanged when the part is missing. -/
def healDocumentXml (isDoubleMode : Bool) (z : Zip) : Zip :=
  match zipFile z docPath with
  | none => z
  | some xml => zipSet z docPath (TagNormalizer.normalize xml isDoubleMode)

/-- The loaded-manager state after `load`: the detected delimiter
configuration and the healed archive. -/
structure DocxManagerState where
  delimiters : DelimiterConfig
  zip : Zip
deriving DecidableEq

/-- `DocxManager.load` on an openable package buffer: detect delimiters, heal
the main text part, and keep the healed archive. -/
def loadOp (content : Zip) : DocxManagerState :=
  let cfg := detectDelimiters (some content)
  ⟨cfg, healDocumentXml (cfg.start = ['{', '{']) content⟩

/-- Errors surfaced by the manager operations. -/
inductive DmError
  | noDocumentLoaded
  | documentXmlMissing
  | invalidPattern
  | textNotFound
deriving DecidableEq, Repr

/-- Decidable equality of manager results (used to evaluate concrete runs of
the fallible operations). -/
instance [DecidableEq ε] [DecidableEq α] : DecidableEq (Except ε α) := fun x y =>
  match x, y with
  | .error a, .error b =>
    if h : a = b then .isTrue (h ▸ rfl) else .isFalse (fun hc => h (Except.error.inj hc))
  | .ok a, .ok b =>
    if h : a = b then .isTrue (h ▸ rfl) else .isFalse (fun hc => h (Except.ok.inj hc))
  | .error _, .ok _ => .isFalse (fun hc => Except.noConfusion hc)
  | .ok _, .error _ => .isFalse (fun hc => Except.noConfusion hc)

/-- The character class `[.*+?^${}()|[\]\\]` escaped by
`replaceSpecificOccurrences` before building its pattern. -/
def isRegexSpecialChar (c : Char) : Bool :=
  ['.', '*', '+', '?', '^', '$', '{', '}', '(', ')', '|', '[', ']', '\\'].contains c

/-- `searchText.replace(/[.*+?^${}()|[\]\\]/g, '\\$&')`. -/
def escapeRegExp (s : Str) : Str :=
  (s.map (fun c => if isRegexSpecialChar c then ['\\', c] else [c])).flatten

/-- The canonical placeholder token `` `{{${tagName}}}` ``. -/
def placeholderToken (tagName : Str) : Str :=
  '{' :: '{' :: (tagName ++ ['}', '}'])

/-- The mutating pass of `DocxManager.replaceSpecificOccurrences` on the main
text part's XML (lines 137–159): build the case-sensitive markup-tolerant
pattern by escaping the search text and joining the characters of the
*escaped* text with `(<[^>]+>)*`, then replace each match whose running index
is in `indicesToReplace` by the placeholder token, and raise when the pass
found no match at all.

Joining the characters of the escaped text breaks every `\c` escape pair
around the inserted group `(<[^>]+>)*`, turning its `(` into a literal `\(`
and leaving its `)` unmatched — so whenever the search text contains any
character of the escaped class, `new RegExp` throws a `SyntaxError`, modelled
here as `.error .invalidPattern`.  When the search text is free of those
characters, escaping is the identity and the pattern is exactly the
markup-tolerant pattern over the search characters. -/
def replacePassXml (xml search tagName : Str) (indices : List Nat) : Except DmError Str :=
  if search.any isRegexSpecialChar then .error .invalidPattern
  else
    let r := runScan (searchMatcher search) xml
    if r.1.length = 0 then .error .textNotFound
    else .ok (rebuild (fun m _ i => if indices.contains i then placeholderToken tagName else m)
      r.1 0 r.2)

/-- `DocxManager.replaceSpecificOccurrences` at the manager level: read the
main text part, run the mutating pass, and on success store the new part and
reload the regenerated bytes through the full load pipeline (delimiter
detection and healing).  Every error is raised before the archive is touched,
so the failing cases return without a new state: the package is unchanged and
no reload occurs. -/
def replaceSpecificOccurrencesOp (st : DocxManagerState) (search tagName : Str)
    (indices : List Nat) : Except DmError DocxManagerState :=
  match zipFile st.zip docPath with
  | none => .error .documentXmlMissing
  | some xml =>
    match replacePassXml xml search tagName indices with
    | .error e => .error e
    | .ok newXml => .ok (loadOp (zipSet st.zip docPath newXml))

/-! ## DocxAppender (src/core/DocxAppender.ts) -/

namespace DocxAppender

/-- The path of the relationships part. -/
def relsPath : PartName := "word/_rels/document.xml.rels".toList

/-- The closing root tag of the relationships part. -/
def relationshipsClose : Str := "</Relationships>".toList

/-- The closing body tag of the main text part. -/
def bodyClose : Str := "</w:body>".toList

/-- `parseInt` on a run of decimal digits. -/
def digitsToNat (ds : Str) : Nat :=
  ds.foldl (fun acc c => acc * 10 + (c.toNat - 48)) 0

/-- Matcher for `/Id="rId(\d+)"/g`.  Payload: the parsed numeric suffix. -/
def rIdMatcher (t : Str) : Option (Nat × Nat) :=
  if ("Id=\"rId".toList).isPrefixOf t then
    let rest := t.drop 7
    let digs := rest.takeWhile Char.isDigit
    if digs = [] then none
    else if (rest.drop digs.length).head? = some '"' then
      some (7 + digs.length + 1, digitsToNat digs)
    else none
  else none

/-- The numeric suffixes of all `Id="rId…"` occurrences of the relationships
part, in document order. -/
def relIdValues (relsXml : Str) : List Nat :=
  (runScan rIdMatcher relsXml).1.map (fun s => s.2.2)

/-- `DocxAppender.getLastRId`: the maximum numeric suffix, `0` when none. -/
def getLastRId (relsXml : Str) : Nat :=
  (relIdValues relsXml).foldl max 0

/-- The relationship entry emitted by `addRelationship`. -/
def relationshipTag (rId target : Str) : Str :=
  "<Relationship Id=\"".toList ++ rId ++
  "\" Type=\"http://schemas.openxmlformats.org/officeDocument/2006/relationships/image\" Target=\"".toList ++
  target ++ "\"/>".toList

/-- `DocxAppender.addRelationship`: insert the entry before the first
occurrence of the closing root tag (JS `String.prototype.replace` with a
plain-string pattern); leave the XML unchanged when the tag is absent. -/
def addRelationship (xml : Str) (rId target : Str) : Str :=
  match splitOnFirst relationshipsClose xml with
  | some (before, after) => before ++ relationshipTag rId target ++ relationshipsClose ++ after
  | none => xml

/-- `DocxAppender.generatePageBreakAndImageXml`: a paragraph with a page
break followed by a full-page inline drawing referencing `rId`.  The
surrounding constant markup is kept abstract up to the two spans around the
interpolated relationship identifier. -/
def pageBreakImageXml (rId : Str) : Str :=
  "\n    <w:p>\n      <w:r>\n        <w:br w:type=\"page\"/>\n      </w:r>\n    </w:p>\n    <w:p>\n      <w:r>\n        <w:drawing>\n          <wp:inline distT=\"0\" distB=\"0\" distL=\"0\" distR=\"0\">\n            <wp:extent cx=\"5953500\" cy=\"8419500\"/>\n            <wp:effectExtent l=\"0\" t=\"0\" r=\"0\" b=\"0\"/>\n            <wp:docPr id=\"1\" name=\"Appendix Image\"/>\n            <wp:cNvGraphicFramePr>\n              <a:graphicFrameLocks xmlns:a=\"http://schemas.openxmlformats.org/drawingml/2006/main\" noChangeAspect=\"1\"/>\n            </wp:cNvGraphicFramePr>\n            <a:graphic xmlns:a=\"http://schemas.openxmlformats.org/drawingml/2006/main\">\n              <a:graphicData uri=\"http://schemas.openxmlformats.org/drawingml/2006/picture\">\n                <pic:pic xmlns:pic=\"http://schemas.openxmlformats.org/drawingml/2006/picture\">\n                  <pic:nvPicPr>\n                    <pic:cNvPr id=\"0\" name=\"Picture\"/>\n                    <pic:cNvPicPr/>\n                  </pic:nvPicPr>\n                  <pic:blipFill>\n                    <a:blip r:embed=\"".toList ++
  rId ++
  "\"/>\n                    <a:stretch>\n                      <a:fillRect/>\n                    </a:stretch>\n                  </pic:blipFill>\n                  <pic:spPr>\n                    <a:xfrm>\n                      <a:off x=\"0\" y=\"0\"/>\n                      <a:ext cx=\"5953500\" cy=\"8419500\"/>\n                    </a:xfrm>\n                    <a:prstGeom prst=\"rect\">\n                      <a:avLst/>\n                    </a:prstGeom>\n                  </pic:spPr>\n                </pic:pic>\n              </a:graphicData>\n            </a:graphic>\n          </wp:inline>\n        </w:drawing>\n      </w:r>\n    </w:p>\n    ".toList

/-- `` `media/appendix_img_${Date.now()}_${index}.jpg` `` — `Date.now()` is
passed in as the `now` parameter. -/
def mediaFileName (now index : Nat) : Str :=
  "media/appendix_img_".toList ++ (Nat.repr now).toList ++ ['_'] ++
    (Nat.repr index).toList ++ ".jpg".toList

/-- The `rId${n}` identifier string. -/
def rIdString (n : Nat) : Str := "rId".toList ++ (Nat.repr n).toList

/-- `DocxAppender.appendImages`.  An empty image list returns the input blob
itself before the archive is even opened.  Otherwise: compute the next
relationship identifier from the relationships part (empty string when the
part is absent); for each image in input order add the media part, append the
relationship entry, and accumulate the page fragment; store the new
relationships part; and splice the accumulated fragments immediately before
the last occurrence of the closing body tag of the main text part, skipping
the splice when the part or the tag is missing.

`appendStep` is one iteration of the `images.forEach` body: allocate the next
identifier, add the media part, append the relationship entry and accumulate
the page fragment.  The state is (zip, relsXml, xmlAppend, lastRId); `p` is
the (index, image) pair. -/
def appendStep (now : Nat) (st : Zip × Str × Str × Nat) (p : Nat × Str) : Zip × Str × Str × Nat :=
  let rid := st.2.2.2 + 1
  let imgFileName := mediaFileName now p.1
  (zipSet st.1 ("word/".toList ++ imgFileName) p.2,
   addRelationship st.2.1 (rIdString rid) imgFileName,
   st.2.2.1 ++ pageBreakImageXml (rIdString rid),
   rid)

/-- `DocxAppender.appendImages`; see `appendStep` for the loop body. -/
def appendImages (now : Nat) (blob : Zip) (images : List Str) : Zip :=
  if images.length = 0 then blob
  else
    let relsXml0 := (zipFile blob relsPath).getD []
    let lastRId := getLastRId relsXml0
    let res := images.enum.foldl (appendStep now) (blob, relsXml0, [], lastRId)
    let zip1 := zipSet res.1 relsPath res.2.1
    match zipFile zip1 docPath with
    | none => zip1
    | some docXml =>
      match lastIndexOfSplit bodyClose docXml with
      | none => zip1
      | some (before, after) =>
        zipSet zip1 docPath (before ++ res.2.2.1 ++ bodyClose ++ after)

/-- The archive path of the `index`-th appended media part. -/
def wordMediaPath (now index : Nat) : PartName :=
  "word/".toList ++ mediaFileName now index

/-- The media-part writes performed by the append loop, images keyed by
position starting at `k`. -/
def mediaZip (now : Nat) : Zip → Nat → List Str → Zip
  | z, _, [] => z
  | z, k, img :: rest => mediaZip now (zipSet z (wordMediaPath now k) img) (k + 1) rest

/-- The concatenation of the relationship entries emitted by the append loop:
the `j`-th entry (zero-based) carries identifier `rId(rid+1+j)` and targets
the media part of image `k+j`. -/
def relTags (now : Nat) : Nat → Nat → Nat → Str
  | _, _, 0 => []
  | rid, k, n + 1 =>
    relationshipTag (rIdString (rid + 1)) (mediaFileName now k) ++ relTags now (rid + 1) (k + 1) n

/-- The concatenation of the page-break-plus-image fragments emitted by the
append loop, in input order, referencing `rId(rid+1) … rId(rid+n)`. -/
def fragsConcat : Nat → Nat → Str
  | _, 0 => []
  | rid, n + 1 => pageBreakImageXml (rIdString (rid + 1)) ++ fragsConcat (rid + 1) n

end DocxAppender

/-! ## Declarative companions used by the claim statements -/

/-- A run of zero or more complete XML tags `<[^>]+>`. -/
inductive TagsRun : Str → Prop
  | nil : TagsRun []
  | cons (inner rest : Str) : inner ≠ [] → (∀ c ∈ inner, c ≠ '>') → TagsRun rest →
      TagsRun ('<' :: (inner ++ '>' :: rest))

/-- The separator-led tail of the markup-tolerant pattern: for each remaining
search character, a run of complete tags followed by that literal
character. -/
inductive SepMatches : List Char → Str → Prop
  | nil : SepMatches [] []
  | cons (c : Char) (cs : List Char) (ts m : Str) : TagsRun ts → SepMatches cs m →
      SepMatches (c :: cs) (ts ++ c :: m)

/-- The markup-tolerant pattern, declaratively: the search characters in
order, with runs of complete XML tags (and nothing else) permitted between
adjacent characters. -/
def MarkupTolerantMatch (search : List Char) (m : Str) : Prop :=
  match search with
  | [] => m = []
  | c :: cs => ∃ m', m = c :: m' ∧ SepMatches cs m'

/-- Case-sensitive code-point lexicographic order on strings (what the spec
calls "case-sensitive lexical order"). -/
def lexLe (a b : Str) : Prop :=
  TagDetector.cmpNatList (a.map Char.toNat) (b.map Char.toNat) ≠ .gt

/-- The order `findTags` sorts by: the modelled `localeCompare` on names does
not place the left name after the right one. -/
def tagLe (x y : DocxTag) : Prop :=
  TagDetector.localeCompare x.name y.name ≠ .gt

/-- Invariant tying the state of the `addTag` fold to the processed pair
list: the seen-list mirrors the tag names; names are distinct, trimmed and
non-empty; each tag keeps the raw form of the first pair whose trimmed name
matches; and the seen-list holds exactly the non-empty trimmed names of the
processed pairs. -/
def AddTagFoldInv (ps : List (Str × Str)) (st : List DocxTag × List Str) : Prop :=
  st.2 = st.1.map DocxTag.name ∧
  (st.1.map DocxTag.name).Nodup ∧
  (∀ tag ∈ st.1, tag.id = tag.name ∧ jsTrim tag.name = tag.name ∧ tag.name ≠ []) ∧
  (∀ tag ∈ st.1, ∃ p, ps.find? (fun q => jsTrim q.2 == tag.name) = some p ∧
    tag.raw = p.1 ∧ tag.name = jsTrim p.2) ∧
  (∀ nm : Str, nm ∈ st.2 ↔ nm ≠ [] ∧ ∃ p ∈ ps, jsTrim p.2 = nm)

/-- An occurrence of a complete XML tag somewhere in a string. -/
def ContainsXmlTag (v : Str) : Prop :=
  ∃ a inner b, v = a ++ '<' :: (inner ++ '>' :: b) ∧ inner ≠ [] ∧ ∀ c ∈ inner, c ≠ '>'

/-- Every double-marker span of `y` closing at the first following double
close marker (the lazy reading of `\x7b\x7b([\s\S]*?)\x7d\x7d`) holds no complete
XML tag and no marker character. -/
def SpanClean (y : Str) : Prop :=
  ∀ a rest v b, y = a ++ '\x7b' :: '\x7b' :: rest →
    splitOnFirst ['\x7d', '\x7d'] rest = some (v, b) →
    ¬ ContainsXmlTag v ∧ ∀ c ∈ v, c ≠ '\x7b' ∧ c ≠ '\x7d'


/-! ## Concrete archives instantiating the append theorem -/

/-- A minimal relationships part holding one existing entry `rId3`. -/
def apRels : Str := "<Relationships><Relationship Id=\"rId3\"/></Relationships>".toList

/-- Everything of `apRels` before its closing root tag. -/
def apRelsBefore : Str := "<Relationships><Relationship Id=\"rId3\"/>".toList

/-- A minimal main text part with a closing body tag. -/
def apDoc : Str := "<w:document><w:body><w:p/></w:body></w:document>".toList

/-- Everything of `apDoc` before the last closing body tag. -/
def apDocBefore : Str := "<w:document><w:body><w:p/>".toList

/-- Everything of `apDoc` after the last closing body tag. -/
def apDocAfter : Str := "</w:document>".toList

/-- The two-image test package. -/
def apBlob : Zip := [(docPath, apDoc), (DocxAppender.relsPath, apRels)]

/-- Two distinct image byte strings. -/
def apImages : List Str := ["IMGA".toList, "IMGB".toList]

/-- The test package without a main text part. -/
def apBlobNoDoc : Zip := [(DocxAppender.relsPath, apRels)]

/-! ## Infrastructure lemmas -/

theorem digitChar_isDigit {m : Nat} (h : m < 10) : (Nat.digitChar m).isDigit = true := by
  interval_cases m <;> decide

theorem digitChar_toNat {m : Nat} (h : m < 10) : (Nat.digitChar m).toNat - 48 = m := by
  interval_cases m <;> decide

theorem toDigitsCore_digits (fuel : Nat) :
    ∀ (n : Nat) (acc : List Char), (∀ c ∈ acc, c.isDigit = true) →
      ∀ c ∈ Nat.toDigitsCore 10 fuel n acc, c.isDigit = true := by
  induction fuel with
  | zero => intro n acc hacc c hc; exact hacc c hc
  | succ fuel ih =>
    intro n acc hacc c hc
    rw [Nat.toDigitsCore] at hc
    have hd : (Nat.digitChar (n % 10)).isDigit = true :=
      digitChar_isDigit (Nat.mod_lt _ (by norm_num))
    have hacc' : ∀ x ∈ Nat.digitChar (n % 10) :: acc, x.isDigit = true := by
      intro x hx
      rcases List.mem_cons.mp hx with rfl | hx
      · exact hd
      · exact hacc x hx
    by_cases h0 : n / 10 = 0
    · rw [if_pos h0] at hc
      exact hacc' c hc
    · rw [if_neg h0] at hc
      exact ih (n / 10) (Nat.digitChar (n % 10) :: acc) hacc' c hc

theorem repr_toList_digits (n : Nat) : ∀ c ∈ (Nat.repr n).toList, c.isDigit = true := by
  have h1 : (Nat.repr n).toList = Nat.toDigitsCore 10 (n + 1) n [] := rfl
  rw [h1]
  exact toDigitsCore_digits (n + 1) n [] (by intro c hc; cases hc)

theorem digitsToNat_foldl (l : Str) : ∀ v : Nat,
    l.foldl (fun acc c => acc * 10 + (c.toNat - 48)) v =
      v * 10 ^ l.length + DocxAppender.digitsToNat l := by
  induction l with
  | nil => intro v; simp [DocxAppender.digitsToNat]
  | cons c rest ih =>
    intro v
    have h1 : DocxAppender.digitsToNat (c :: rest) =
        rest.foldl (fun acc c => acc * 10 + (c.toNat - 48)) (0 * 10 + (c.toNat - 48)) := rfl
    rw [List.foldl_cons, ih (v * 10 + (c.toNat - 48)), h1, ih (0 * 10 + (c.toNat - 48))]
    simp only [List.length_cons]
    ring

theorem digitsToNat_toDigitsCore (fuel : Nat) :
    ∀ (n : Nat) (acc : List Char), n < fuel →
      DocxAppender.digitsToNat (Nat.toDigitsCore 10 fuel n acc) =
        n * 10 ^ acc.length + DocxAppender.digitsToNat acc := by
  induction fuel with
  | zero => intro n acc hn; exact absurd hn (Nat.not_lt_zero _)
  | succ fuel ih =>
    intro n acc hn
    rw [Nat.toDigitsCore]
    have hmod : n % 10 < 10 := Nat.mod_lt _ (by norm_num)
    have hdc : DocxAppender.digitsToNat (Nat.digitChar (n % 10) :: acc) =
        (n % 10) * 10 ^ acc.length + DocxAppender.digitsToNat acc := by
      have h1 : DocxAppender.digitsToNat (Nat.digitChar (n % 10) :: acc) =
          acc.foldl (fun a c => a * 10 + (c.toNat - 48))
            (0 * 10 + ((Nat.digitChar (n % 10)).toNat - 48)) := rfl
      rw [h1, digitsToNat_foldl, digitChar_toNat hmod]
      ring
    by_cases h0 : n / 10 = 0
    · rw [if_pos h0, hdc]
      have hn10 : n = n % 10 := by omega
      rw [← hn10]
    · rw [if_neg h0]
      have hdiv : n / 10 < fuel := by
        have h1 : n / 10 < n := Nat.div_lt_self (by omega) (by norm_num)
        omega
      rw [ih (n / 10) (Nat.digitChar (n % 10) :: acc) hdiv]
      simp only [List.length_cons, hdc]
      have hn10 : 10 * (n / 10) + n % 10 = n := Nat.div_add_mod n 10
      calc n / 10 * 10 ^ (acc.length + 1) + (n % 10 * 10 ^ acc.length +
              DocxAppender.digitsToNat acc)
          = (10 * (n / 10) + n % 10) * 10 ^ acc.length + DocxAppender.digitsToNat acc := by ring
        _ = n * 10 ^ acc.length + DocxAppender.digitsToNat acc := by rw [hn10]

theorem digitsToNat_repr (n : Nat) : DocxAppender.digitsToNat (Nat.repr n).toList = n := by
  have h1 : (Nat.repr n).toList = Nat.toDigitsCore 10 (n + 1) n [] := rfl
  rw [h1, digitsToNat_toDigitsCore (n + 1) n [] (Nat.lt_succ_self n)]
  simp [DocxAppender.digitsToNat]

theorem repr_toList_injective {i j : Nat} (h : (Nat.repr i).toList = (Nat.repr j).toList) :
    i = j := by
  have h1 := digitsToNat_repr i
  rw [h, digitsToNat_repr j] at h1
  exact h1.symm

theorem zipFile_zipSet_same (z : Zip) (n : PartName) (c : Str) :
    zipFile (zipSet z n c) n = some c := by
  induction z with
  | nil => simp [zipSet, zipFile]
  | cons hd tl ih =>
    obtain ⟨m, c'⟩ := hd
    by_cases h : m = n <;> simp [zipSet, zipFile, h, ih]

theorem zipFile_zipSet_other (z : Zip) (n n' : PartName) (c : Str) (h : n ≠ n') :
    zipFile (zipSet z n c) n' = zipFile z n' := by
  induction z with
  | nil => simp [zipSet, zipFile, h]
  | cons hd tl ih =>
    obtain ⟨m, c'⟩ := hd
    by_cases hm : m = n
    · subst hm
      simp [zipSet, zipFile, h, ih]
    · by_cases hm' : m = n'
      · have hne : ¬ n' = n := fun hh => hm (hm' ▸ hh)
        simp [zipSet, zipFile, hm, hm', hne]
      · simp [zipSet, zipFile, hm, hm', ih]

theorem consumeTag_append {t tag rest : Str} (h : consumeTag t = some (tag, rest)) :
    tag ++ rest = t ∧ rest.length < t.length := by
  match t with
  | [] => simp [consumeTag] at h
  | c :: t' =>
    rw [consumeTag] at h
    by_cases hc : c = '<'
    · subst hc
      simp only [if_pos rfl] at h
      cases hdw : t'.dropWhile (· != '>') with
      | nil => rw [hdw] at h; simp at h
      | cons d after =>
        rw [hdw] at h
        by_cases hd : d = '>'
        · subst hd
          by_cases htw : t'.takeWhile (· != '>') = []
          · simp [htw] at h
          · simp only [if_pos rfl, if_neg htw, Option.some.injEq, Prod.mk.injEq] at h
            obtain ⟨rfl, rfl⟩ := h
            have htd := List.takeWhile_append_dropWhile (· != '>') t'
            rw [hdw] at htd
            constructor
            · simp only [List.cons_append, List.append_assoc, List.singleton_append,
                List.nil_append, htd]
            · have hlen : (t'.dropWhile (· != '>')).length ≤ t'.length :=
                (List.dropWhile_sublist _).length_le
              rw [hdw] at hlen
              simp only [List.length_cons] at hlen
              simp only [List.length_cons]
              omega
        · simp [hd] at h
    · simp [hc] at h

theorem findFirstM_some {M : Str → Option (Nat × α)} :
    ∀ {t : Str} {g n : Nat} {a : α}, findFirstM M t = some (g, n, a) →
      M (t.drop g) = some (n, a) ∧ g ≤ t.length ∧ ∀ j, j < g → M (t.drop j) = none := by
  intro t
  induction t with
  | nil =>
    intro g n a h
    rw [findFirstM] at h
    cases hM : M [] with
    | none => rw [hM] at h; exact absurd h (by simp)
    | some p =>
      rw [hM] at h
      obtain ⟨n', a'⟩ := p
      simp only [Option.some.injEq, Prod.mk.injEq] at h
      obtain ⟨rfl, rfl, rfl⟩ := h
      exact ⟨hM, Nat.le_refl _, fun j hj => absurd hj (Nat.not_lt_zero _)⟩
  | cons c rest ih =>
    intro g n a h
    rw [findFirstM] at h
    cases hM : M (c :: rest) with
    | some p =>
      rw [hM] at h
      obtain ⟨n', a'⟩ := p
      simp only [Option.some.injEq, Prod.mk.injEq] at h
      obtain ⟨rfl, rfl, rfl⟩ := h
      exact ⟨hM, Nat.zero_le _, fun j hj => absurd hj (Nat.not_lt_zero _)⟩
    | none =>
      rw [hM] at h
      cases hf : findFirstM M rest with
      | none => rw [hf] at h; exact absurd h (by simp)
      | some q =>
        rw [hf] at h
        obtain ⟨g', n', a'⟩ := q
        simp only [Option.some.injEq, Prod.mk.injEq] at h
        obtain ⟨rfl, rfl, rfl⟩ := h
        obtain ⟨h1, h2, h3⟩ := ih hf
        refine ⟨by simpa using h1, by simpa using Nat.succ_le_succ h2, ?_⟩
        intro j hj
        cases j with
        | zero => simpa using hM
        | succ j' =>
          have hj' : j' < g' := Nat.lt_of_succ_lt_succ hj
          simpa using h3 j' hj'

theorem findFirstM_none {M : Str → Option (Nat × α)} :
    ∀ {t : Str}, findFirstM M t = none → ∀ j, M (t.drop j) = none := by
  intro t
  induction t with
  | nil =>
    intro h j
    rw [findFirstM] at h
    cases hM : M [] with
    | none => simpa using hM
    | some p => rw [hM] at h; exact absurd h (by simp)
  | cons c rest ih =>
    intro h j
    rw [findFirstM] at h
    cases hM : M (c :: rest) with
    | some p => rw [hM] at h; exact absurd h (by simp)
    | none =>
      rw [hM] at h
      cases hf : findFirstM M rest with
      | some q => rw [hf] at h; obtain ⟨g', n', a'⟩ := q; exact absurd h (by simp)
      | none =>
        cases j with
        | zero => simpa using hM
        | succ j' => simpa using ih hf j'

theorem glueSegs_consSegChar (c : Char) (r : List (Str × Str × α) × Str) :
    glueSegs (consSegChar c r) = c :: glueSegs r := by
  obtain ⟨segs, tl⟩ := r
  cases segs with
  | nil => rfl
  | cons s rest => obtain ⟨g, m, a⟩ := s; rfl

theorem glueSegs_nil (tl : Str) : glueSegs (α := α) ([], tl) = tl := rfl

theorem glueSegs_cons (s : Str × Str × α) (segs : List (Str × Str × α)) (tl : Str) :
    glueSegs (s :: segs, tl) = s.1 ++ s.2.1 ++ glueSegs (segs, tl) := rfl

theorem glueSegs_eta (r : List (Str × Str × α) × Str) : glueSegs (r.1, r.2) = glueSegs r := rfl

theorem scanM_zero (M : Str → Option (Nat × α)) (t : Str) : scanM M 0 t = ([], t) := rfl

theorem scanM_succ_none {M : Str → Option (Nat × α)} {t : Str} (fuel : Nat)
    (hf : findFirstM M t = none) : scanM M (fuel + 1) t = ([], t) := by
  rw [scanM, hf]

theorem scanM_succ_some {M : Str → Option (Nat × α)} {t : Str} {g n : Nat} {a : α} (fuel : Nat)
    (hf : findFirstM M t = some (g, n, a)) :
    scanM M (fuel + 1) t =
      if n = 0 then
        match t.drop (g + n) with
        | [] => ([(t.take g, [], a)], [])
        | c :: rest' =>
          ((t.take g, [], a) :: (consSegChar c (scanM M fuel rest')).1,
            (consSegChar c (scanM M fuel rest')).2)
      else
        ((t.take g, (t.drop g).take n, a) :: (scanM M fuel (t.drop (g + n))).1,
          (scanM M fuel (t.drop (g + n))).2) := by
  rw [scanM, hf]

theorem scanM_glue {M : Str → Option (Nat × α)}
    (hM : ∀ t n a, M t = some (n, a) → n ≤ t.length) :
    ∀ fuel (t : Str), t.length < fuel → glueSegs (scanM M fuel t) = t := by
  intro fuel
  induction fuel with
  | zero => intro t h; exact absurd h (Nat.not_lt_zero _)
  | succ fuel ih =>
    intro t h
    cases hf : findFirstM M t with
    | none => rw [scanM_succ_none fuel hf]; rfl
    | some p =>
      obtain ⟨g, n, a⟩ := p
      obtain ⟨h1, h2, -⟩ := findFirstM_some hf
      have hn : n ≤ t.length - g := by
        have := hM _ _ _ h1
        simpa [List.length_drop] using this
      rw [scanM_succ_some fuel hf]
      by_cases h0 : n = 0
      · rw [if_pos h0]
        subst h0
        cases hrest : t.drop (g + 0) with
        | nil =>
          have hg : t.length ≤ g := by
            have hl : (t.drop (g + 0)).length = 0 := by rw [hrest]; rfl
            simp [List.length_drop] at hl
            omega
          have hfin : glueSegs (α := α) ([(t.take g, [], a)], []) = t := by
            rw [glueSegs_cons, glueSegs_nil]
            simp [List.take_of_length_le hg]
          exact hfin
        | cons c rest' =>
          have hlen : rest'.length < fuel := by
            have hl : (t.drop (g + 0)).length = rest'.length + 1 := by rw [hrest]; rfl
            simp [List.length_drop] at hl
            omega
          have hfin : glueSegs ((t.take g, [], a) :: (consSegChar c (scanM M fuel rest')).1,
              (consSegChar c (scanM M fuel rest')).2) = t := by
            rw [glueSegs_cons, glueSegs_eta, glueSegs_consSegChar, ih rest' hlen]
            have hcr : c :: rest' = t.drop (g + 0) := hrest.symm
            rw [hcr]
            simp [List.take_append_drop]
          exact hfin
      · rw [if_neg h0]
        have hlen : (t.drop (g + n)).length < fuel := by
          simp only [List.length_drop]
          omega
        have hdd : t.drop (g + n) = (t.drop g).drop n := by
          rw [List.drop_drop, Nat.add_comm]
        have hfin : glueSegs ((t.take g, (t.drop g).take n, a) :: (scanM M fuel (t.drop (g + n))).1,
            (scanM M fuel (t.drop (g + n))).2) = t := by
          rw [glueSegs_cons, glueSegs_eta, ih _ hlen, hdd]
          show t.take g ++ (t.drop g).take n ++ (t.drop g).drop n = t
          rw [List.append_assoc, List.take_append_drop, List.take_append_drop]
        exact hfin

theorem consSegChar_mem {c : Char} {r : List (Str × Str × α) × Str} {seg : Str × Str × α}
    (h : seg ∈ (consSegChar c r).1) : ∃ seg' ∈ r.1, seg.2 = seg'.2 := by
  obtain ⟨segs, tl⟩ := r
  cases segs with
  | nil => simp [consSegChar] at h
  | cons s rest =>
    obtain ⟨g, m, a⟩ := s
    simp only [consSegChar, List.mem_cons] at h
    rcases h with rfl | hm
    · exact ⟨(g, m, a), List.mem_cons_self _ _, rfl⟩
    · exact ⟨seg, List.mem_cons_of_mem _ hm, rfl⟩

theorem scanM_matched {M : Str → Option (Nat × α)}
    (hM : ∀ t n a, M t = some (n, a) → n ≤ t.length) :
    ∀ fuel (t : Str), t.length < fuel →
      ∀ seg ∈ (scanM M fuel t).1, ∃ u, M (seg.2.1 ++ u) = some (seg.2.1.length, seg.2.2) := by
  intro fuel
  induction fuel with
  | zero => intro t h; exact absurd h (Nat.not_lt_zero _)
  | succ fuel ih =>
    intro t h seg hseg
    cases hf : findFirstM M t with
    | none => rw [scanM_succ_none fuel hf] at hseg; simp at hseg
    | some p =>
      obtain ⟨g, n, a⟩ := p
      obtain ⟨h1, h2, -⟩ := findFirstM_some hf
      have hn : n ≤ t.length - g := by
        have := hM _ _ _ h1
        simpa [List.length_drop] using this
      rw [scanM_succ_some fuel hf] at hseg
      by_cases h0 : n = 0
      · rw [if_pos h0] at hseg
        subst h0
        cases hrest : t.drop (g + 0) with
        | nil =>
          rw [hrest] at hseg
          simp only [List.mem_singleton] at hseg
          subst hseg
          exact ⟨t.drop g, by simpa using h1⟩
        | cons c rest' =>
          rw [hrest] at hseg
          simp only [List.mem_cons] at hseg
          rcases hseg with rfl | hseg
          · exact ⟨t.drop g, by simpa using h1⟩
          · have hlen : rest'.length < fuel := by
              have hl : (t.drop (g + 0)).length = rest'.length + 1 := by rw [hrest]; rfl
              simp [List.length_drop] at hl
              omega
            obtain ⟨seg', hseg', heq⟩ := consSegChar_mem hseg
            obtain ⟨u, hu⟩ := ih rest' hlen seg' hseg'
            exact ⟨u, by rw [heq]; exact hu⟩
      · rw [if_neg h0] at hseg
        simp only [List.mem_cons] at hseg
        rcases hseg with rfl | hseg
        · refine ⟨(t.drop g).drop n, ?_⟩
          have hml : ((t.drop g).take n).length = n := by
            rw [List.length_take]
            simp only [List.length_drop]
            omega
          show M ((t.drop g).take n ++ (t.drop g).drop n) = _
          rw [List.take_append_drop, hml]
          exact h1
        · have hlen : (t.drop (g + n)).length < fuel := by
            simp only [List.length_drop]
            omega
          exact ih _ hlen seg hseg

theorem noLtSlash_cons {c : Char} {rest : Str} :
    noLtSlash (c :: rest) = (!(c = '<' && rest.head? = some '/') && noLtSlash rest) := rfl

theorem noLtSlash_tail {c : Char} {rest : Str} (h : noLtSlash (c :: rest) = true) :
    noLtSlash rest = true := by
  rw [noLtSlash_cons, Bool.and_eq_true] at h
  exact h.2

theorem noLtSlash_drop : ∀ (l : Str) (k : Nat), noLtSlash l = true → noLtSlash (l.drop k) = true := by
  intro l
  induction l with
  | nil => intro k h; simpa using h
  | cons c rest ih =>
    intro k h
    cases k with
    | zero => exact h
    | succ k' => exact ih k' (noLtSlash_tail h)

theorem noLtSlash_of_no_lt : ∀ (l : Str), (∀ c ∈ l, c ≠ '<') → noLtSlash l = true := by
  intro l
  induction l with
  | nil => intro h; rfl
  | cons c rest ih =>
    intro h
    rw [noLtSlash_cons, Bool.and_eq_true]
    refine ⟨?_, ih (fun x hx => h x (List.mem_cons_of_mem _ hx))⟩
    have hc : c ≠ '<' := h c (List.mem_cons_self _ _)
    simp [hc]

theorem noLtSlash_append {y : Str} (hy : noLtSlash y = true) :
    ∀ (x : Str), noLtSlash x = true → ¬(x.getLast? = some '<' ∧ y.head? = some '/') →
      noLtSlash (x ++ y) = true := by
  intro x
  induction x with
  | nil => intro _ _; simpa using hy
  | cons c rest ih =>
    intro hx hxy
    rw [List.cons_append, noLtSlash_cons, Bool.and_eq_true]
    cases rest with
    | nil =>
      refine ⟨?_, by simpa using hy⟩
      by_cases hc : c = '<'
      · subst hc
        have hyh : y.head? ≠ some '/' := fun hh => hxy ⟨rfl, hh⟩
        simp [hyh]
      · simp [hc]
    | cons d rest' =>
      have hx2 := noLtSlash_tail hx
      have hpair : ¬(c = '<' ∧ d = '/') := by
        rintro ⟨rfl, rfl⟩
        rw [noLtSlash_cons] at hx
        simp at hx
      have hlast : (c :: d :: rest').getLast? = (d :: rest').getLast? :=
        List.getLast?_cons_cons ..
      refine ⟨?_, ih hx2 (fun hh => hxy ⟨hlast ▸ hh.1, hh.2⟩)⟩
      have hh : ((d :: rest') ++ y).head? = some d := rfl
      by_cases hc : c = '<'
      · subst hc
        have hd : d ≠ '/' := fun hd => hpair ⟨rfl, hd⟩
        simp [hh, hd]
      · simp [hc]

theorem splitOnFirst_sound {pat : Str} :
    ∀ {s b a : Str}, splitOnFirst pat s = some (b, a) →
      s = b ++ pat ++ a ∧ ∀ i, i < b.length → pat.isPrefixOf (s.drop i) = false := by
  intro s
  induction s with
  | nil =>
    intro b a h
    rw [splitOnFirst] at h
    by_cases hp : pat.isPrefixOf ([] : Str) = true
    · rw [if_pos hp] at h
      simp only [Option.some.injEq, Prod.mk.injEq] at h
      obtain ⟨rfl, rfl⟩ := h
      have hpn : pat = [] := by
        have := List.isPrefixOf_iff_prefix.mp hp
        simpa using this
      exact ⟨by simp [hpn], fun i hi => absurd hi (by simp)⟩
    · rw [if_neg hp] at h
      cases h
  | cons c rest ih =>
    intro b a h
    rw [splitOnFirst] at h
    by_cases hp : pat.isPrefixOf (c :: rest) = true
    · rw [if_pos hp] at h
      simp only [Option.some.injEq, Prod.mk.injEq] at h
      obtain ⟨rfl, rfl⟩ := h
      obtain ⟨t, ht⟩ := List.isPrefixOf_iff_prefix.mp hp
      have hdrop : (c :: rest).drop pat.length = t := by
        rw [← ht, List.drop_left]
      refine ⟨?_, fun i hi => absurd hi (by simp)⟩
      rw [hdrop, List.nil_append, ht]
    · rw [if_neg hp] at h
      cases hrec : splitOnFirst pat rest with
      | none => rw [hrec] at h; cases h
      | some q =>
        obtain ⟨b', a'⟩ := q
        rw [hrec] at h
        simp only [Option.some.injEq, Prod.mk.injEq] at h
        obtain ⟨rfl, rfl⟩ := h
        obtain ⟨ih1, ih2⟩ := ih hrec
        refine ⟨by rw [List.cons_append, List.cons_append, ← ih1], ?_⟩
        intro i hi
        cases i with
        | zero =>
          rw [List.drop_zero]
          exact Bool.not_eq_true _ ▸ hp
        | succ i' =>
          have := ih2 i' (by simpa using hi)
          simpa using this

theorem splitOnFirst_of_prefix {pat s : Str} (hpat : pat ≠ [])
    (hp : pat.isPrefixOf s = true) :
    splitOnFirst pat s = some ([], s.drop pat.length) := by
  cases s with
  | nil =>
    have := List.isPrefixOf_iff_prefix.mp hp
    exact absurd (by simpa using this) hpat
  | cons c rest => rw [splitOnFirst, if_pos hp]

theorem splitOnFirst_of_first {pat : Str} (hpat : pat ≠ []) :
    ∀ (b a : Str), (∀ i, i < b.length → pat.isPrefixOf ((b ++ pat ++ a).drop i) = false) →
      splitOnFirst pat (b ++ pat ++ a) = some (b, a) := by
  intro b
  induction b with
  | nil =>
    intro a _
    have hp : pat.isPrefixOf (pat ++ a) = true := List.isPrefixOf_iff_prefix.mpr ⟨a, rfl⟩
    rw [List.nil_append, splitOnFirst_of_prefix hpat hp, List.drop_left]
  | cons c b' ih =>
    intro a hmin
    have hs : (c :: b') ++ pat ++ a = c :: (b' ++ pat ++ a) := by
      simp [List.cons_append]
    have h0 : pat.isPrefixOf (c :: (b' ++ pat ++ a)) = false := by
      have := hmin 0 (by simp)
      rw [List.drop_zero] at this
      rw [← hs]
      exact this
    rw [hs, splitOnFirst, if_neg (by rw [h0]; simp)]
    have hrec := ih a (fun i hi => by
      have := hmin (i + 1) (by simpa using Nat.succ_lt_succ hi)
      rw [hs] at this
      simpa using this)
    rw [hrec]

theorem relsClose_ne_nil : DocxAppender.relationshipsClose ≠ [] := by decide

theorem relsClose_drop_head : ∀ j, j < DocxAppender.relationshipsClose.length → 0 < j →
    (DocxAppender.relationshipsClose.drop j).head? ≠ some '<' := by decide

theorem relsClose_insert {b a ins : Str}
    (hmin : ∀ i, i < b.length →
      DocxAppender.relationshipsClose.isPrefixOf
        ((b ++ DocxAppender.relationshipsClose ++ a).drop i) = false)
    (hins0 : ins ≠ []) (hins1 : ins.head? = some '<') (hins2 : noLtSlash ins = true) :
    ∀ i, i < (b ++ ins).length →
      DocxAppender.relationshipsClose.isPrefixOf
        (((b ++ ins) ++ DocxAppender.relationshipsClose ++ a).drop i) = false := by
  intro i hi
  by_contra hcon
  rw [Bool.not_eq_false] at hcon
  have hpre := List.isPrefixOf_iff_prefix.mp hcon
  rw [List.length_append] at hi
  have hd1 : ((b ++ ins) ++ DocxAppender.relationshipsClose ++ a) =
      b ++ (ins ++ (DocxAppender.relationshipsClose ++ a)) := by
    simp [List.append_assoc]
  by_cases hib : i < b.length
  · have hdropeq : (((b ++ ins) ++ DocxAppender.relationshipsClose ++ a)).drop i =
        b.drop i ++ (ins ++ (DocxAppender.relationshipsClose ++ a)) := by
      rw [hd1, List.drop_append_of_le_length (le_of_lt hib)]
    rw [hdropeq] at hpre
    by_cases hlen : DocxAppender.relationshipsClose.length ≤ (b.drop i).length
    · have hpb : DocxAppender.relationshipsClose <+: b.drop i := by
        obtain ⟨t, ht⟩ := hpre
        have hq : DocxAppender.relationshipsClose =
            (b.drop i).take DocxAppender.relationshipsClose.length := by
          have hcg := congrArg (List.take DocxAppender.relationshipsClose.length) ht
          rw [List.take_left, List.take_append_of_le_length hlen] at hcg
          exact hcg
        rw [hq]
        exact List.take_prefix _ _
      have hold : DocxAppender.relationshipsClose <+:
          (b ++ DocxAppender.relationshipsClose ++ a).drop i := by
        have hd2 : (b ++ DocxAppender.relationshipsClose ++ a).drop i =
            b.drop i ++ (DocxAppender.relationshipsClose ++ a) := by
          rw [List.append_assoc, List.drop_append_of_le_length (le_of_lt hib)]
        rw [hd2]
        exact hpb.trans (List.prefix_append _ _)
      have hfalse := hmin i hib
      rw [← List.isPrefixOf_iff_prefix] at hold
      rw [hold] at hfalse
      cases hfalse
    · push_neg at hlen
      obtain ⟨t, ht⟩ := hpre
      have hj0 : 0 < (b.drop i).length := by
        rw [List.length_drop]
        omega
      have heq2 : DocxAppender.relationshipsClose.drop (b.drop i).length ++ t =
          ins ++ (DocxAppender.relationshipsClose ++ a) := by
        have hcg := congrArg (List.drop (b.drop i).length) ht
        rw [List.drop_append_of_le_length (le_of_lt hlen), List.drop_left] at hcg
        exact hcg
      have hne : DocxAppender.relationshipsClose.drop (b.drop i).length ≠ [] := by
        intro hnil
        have hln := congrArg List.length hnil
        rw [List.length_drop] at hln
        simp only [List.length_nil] at hln
        omega
      have hhead : (DocxAppender.relationshipsClose.drop (b.drop i).length).head? = some '<' := by
        have h1 : (DocxAppender.relationshipsClose.drop (b.drop i).length ++ t).head? =
            (DocxAppender.relationshipsClose.drop (b.drop i).length).head? :=
          List.head?_append_of_ne_nil _ hne
        rw [heq2, List.head?_append_of_ne_nil _ hins0, hins1] at h1
        exact h1.symm
      exact relsClose_drop_head (b.drop i).length hlen hj0 hhead
  · push_neg at hib
    have hk : i - b.length < ins.length := by omega
    have hdropeq : (((b ++ ins) ++ DocxAppender.relationshipsClose ++ a)).drop i =
        ins.drop (i - b.length) ++ (DocxAppender.relationshipsClose ++ a) := by
      rw [hd1, List.drop_append_eq_append_drop, List.drop_eq_nil_of_le hib, List.nil_append,
        List.drop_append_of_le_length (le_of_lt hk)]
    rw [hdropeq] at hpre
    obtain ⟨t, ht⟩ := hpre
    have hnls := noLtSlash_drop ins (i - b.length) hins2
    cases hdk : ins.drop (i - b.length) with
    | nil =>
      have hln := congrArg List.length hdk
      rw [List.length_drop] at hln
      simp only [List.length_nil] at hln
      omega
    | cons x xs =>
      rw [hdk] at ht
      rw [hdk, noLtSlash_cons, Bool.and_eq_true] at hnls
      have hx : x = '<' := by
        have hcg := congrArg List.head? ht
        rw [List.head?_append_of_ne_nil _ relsClose_ne_nil] at hcg
        have hp0 : DocxAppender.relationshipsClose.head? = some '<' := by decide
        rw [hp0] at hcg
        simpa using hcg.symm
      have hp1L : (DocxAppender.relationshipsClose ++ t).get? 1 = some '/' := by
        rw [List.get?_append (by decide)]
        decide
      cases hxs : xs with
      | nil =>
        rw [hxs] at ht
        have hcg := congrArg (fun l => l.get? 1) ht
        simp only at hcg
        rw [hp1L] at hcg
        have hr : ((x :: ([] ++ (DocxAppender.relationshipsClose ++ a))).get? 1) =
            (DocxAppender.relationshipsClose ++ a).get? 0 := by
          simp
        rw [List.cons_append, List.nil_append] at hcg
        have hr0 : (DocxAppender.relationshipsClose ++ a).get? 0 = some '<' := by
          rw [List.get?_append (by decide)]
          decide
        have : (x :: (DocxAppender.relationshipsClose ++ a)).get? 1 =
            (DocxAppender.relationshipsClose ++ a).get? 0 := rfl
        rw [this, hr0] at hcg
        cases hcg
      | cons y ys =>
        rw [hxs] at ht
        have hy : y = '/' := by
          have hcg := congrArg (fun l => l.get? 1) ht
          simp only at hcg
          rw [hp1L, List.cons_append] at hcg
          have hr : (x :: ((y :: ys) ++ (DocxAppender.relationshipsClose ++ a))).get? 1 =
              some y := rfl
          rw [hr] at hcg
          have := hcg.symm
          simpa using this
        rw [hxs] at hnls
        obtain ⟨hnls1, -⟩ := hnls
        rw [hx, hy] at hnls1
        simp at hnls1

theorem isDigit_ne_lt {c : Char} (h : c.isDigit = true) : c ≠ '<' := by
  intro hc
  rw [hc] at h
  exact absurd h (by decide)

theorem mediaFileName_no_lt (now i : Nat) : ∀ c ∈ DocxAppender.mediaFileName now i, c ≠ '<' := by
  have h1 : ∀ x ∈ "media/appendix_img_".toList, x ≠ '<' := by decide
  have h2 : ∀ x ∈ ['_'], x ≠ '<' := by decide
  have h3 : ∀ x ∈ ".jpg".toList, x ≠ '<' := by decide
  intro c hc
  rw [DocxAppender.mediaFileName] at hc
  simp only [List.mem_append] at hc
  rcases hc with (((hc | hc) | hc) | hc) | hc
  · exact h1 c hc
  · exact isDigit_ne_lt (repr_toList_digits now c hc)
  · exact h2 c hc
  · exact isDigit_ne_lt (repr_toList_digits i c hc)
  · exact h3 c hc

theorem rIdString_no_lt (n : Nat) : ∀ c ∈ DocxAppender.rIdString n, c ≠ '<' := by
  have h1 : ∀ x ∈ "rId".toList, x ≠ '<' := by decide
  intro c hc
  rw [DocxAppender.rIdString] at hc
  simp only [List.mem_append] at hc
  rcases hc with hc | hc
  · exact h1 c hc
  · exact isDigit_ne_lt (repr_toList_digits n c hc)

theorem relationshipTag_head (rId target : Str) :
    (DocxAppender.relationshipTag rId target).head? = some '<' := rfl

theorem relationshipTag_ne_nil (rId target : Str) :
    DocxAppender.relationshipTag rId target ≠ [] := by
  intro h
  have := congrArg List.head? h
  rw [relationshipTag_head] at this
  cases this

theorem relationshipTag_noLtSlash (rid now i : Nat) :
    noLtSlash (DocxAppender.relationshipTag (DocxAppender.rIdString rid)
      (DocxAppender.mediaFileName now i)) = true := by
  have hshape : DocxAppender.relationshipTag (DocxAppender.rIdString rid)
      (DocxAppender.mediaFileName now i) =
      "<Relationship Id=\"".toList ++
        (DocxAppender.rIdString rid ++
          ("\" Type=\"http://schemas.openxmlformats.org/officeDocument/2006/relationships/image\" Target=\"".toList ++
            (DocxAppender.mediaFileName now i ++ "\"/>".toList))) := by
    rw [DocxAppender.relationshipTag]
    simp [List.append_assoc]
  rw [hshape]
  have hB : ∀ x ∈ "\" Type=\"http://schemas.openxmlformats.org/officeDocument/2006/relationships/image\" Target=\"".toList, x ≠ '<' := by decide
  have hC : ∀ x ∈ "\"/>".toList, x ≠ '<' := by decide
  apply noLtSlash_append
  · apply noLtSlash_of_no_lt
    intro c hc
    simp only [List.mem_append] at hc
    rcases hc with hc | (hc | (hc | hc))
    · exact rIdString_no_lt rid c hc
    · exact hB c hc
    · exact mediaFileName_no_lt now i c hc
    · exact hC c hc
  · decide
  · rintro ⟨h1, -⟩
    revert h1
    decide

theorem addRelationship_eq {b a : Str} (rId target : Str)
    (hmin : ∀ i, i < b.length → DocxAppender.relationshipsClose.isPrefixOf
      ((b ++ DocxAppender.relationshipsClose ++ a).drop i) = false) :
    DocxAppender.addRelationship (b ++ DocxAppender.relationshipsClose ++ a) rId target =
      (b ++ DocxAppender.relationshipTag rId target) ++ DocxAppender.relationshipsClose ++ a := by
  rw [DocxAppender.addRelationship, splitOnFirst_of_first relsClose_ne_nil b a hmin]

theorem appendImages_fold (now : Nat) :
    ∀ (imgs : List Str) (k : Nat) (z : Zip) (app b a : Str) (rid : Nat),
      (∀ i, i < b.length →
        DocxAppender.relationshipsClose.isPrefixOf
          ((b ++ DocxAppender.relationshipsClose ++ a).drop i) = false) →
      (List.enumFrom k imgs).foldl (DocxAppender.appendStep now)
          (z, b ++ DocxAppender.relationshipsClose ++ a, app, rid) =
        (DocxAppender.mediaZip now z k imgs,
         (b ++ DocxAppender.relTags now rid k imgs.length) ++
           DocxAppender.relationshipsClose ++ a,
         app ++ DocxAppender.fragsConcat rid imgs.length,
         rid + imgs.length) ∧
      (∀ i, i < (b ++ DocxAppender.relTags now rid k imgs.length).length →
        DocxAppender.relationshipsClose.isPrefixOf
          (((b ++ DocxAppender.relTags now rid k imgs.length) ++
            DocxAppender.relationshipsClose ++ a).drop i) = false) := by
  intro imgs
  induction imgs with
  | nil =>
    intro k z app b a rid hmin
    constructor
    · simp [DocxAppender.relTags, DocxAppender.fragsConcat, DocxAppender.mediaZip,
        List.enumFrom]
    · intro i hi
      simp only [DocxAppender.relTags, List.append_nil] at hi ⊢
      exact hmin i hi
  | cons img rest ih =>
    intro k z app b a rid hmin
    have htag0 := relationshipTag_ne_nil (DocxAppender.rIdString (rid + 1))
      (DocxAppender.mediaFileName now k)
    have htag1 := relationshipTag_head (DocxAppender.rIdString (rid + 1))
      (DocxAppender.mediaFileName now k)
    have htag2 := relationshipTag_noLtSlash (rid + 1) now k
    have hmin' := relsClose_insert hmin htag0 htag1 htag2
    have hstep : DocxAppender.appendStep now
        (z, b ++ DocxAppender.relationshipsClose ++ a, app, rid) (k, img) =
        (zipSet z (DocxAppender.wordMediaPath now k) img,
         (b ++ DocxAppender.relationshipTag (DocxAppender.rIdString (rid + 1))
            (DocxAppender.mediaFileName now k)) ++ DocxAppender.relationshipsClose ++ a,
         app ++ DocxAppender.pageBreakImageXml (DocxAppender.rIdString (rid + 1)),
         rid + 1) := by
      rw [DocxAppender.appendStep]
      rw [addRelationship_eq _ _ hmin]
      rfl
    have hfold : (List.enumFrom k (img :: rest)).foldl (DocxAppender.appendStep now)
        (z, b ++ DocxAppender.relationshipsClose ++ a, app, rid) =
        (List.enumFrom (k + 1) rest).foldl (DocxAppender.appendStep now)
          ((zipSet z (DocxAppender.wordMediaPath now k) img),
           (b ++ DocxAppender.relationshipTag (DocxAppender.rIdString (rid + 1))
              (DocxAppender.mediaFileName now k)) ++ DocxAppender.relationshipsClose ++ a,
           app ++ DocxAppender.pageBreakImageXml (DocxAppender.rIdString (rid + 1)),
           rid + 1) := by
      rw [List.enumFrom_cons, List.foldl_cons, hstep]
    obtain ⟨ih1, ih2⟩ := ih (k + 1) (zipSet z (DocxAppender.wordMediaPath now k) img)
      (app ++ DocxAppender.pageBreakImageXml (DocxAppender.rIdString (rid + 1)))
      (b ++ DocxAppender.relationshipTag (DocxAppender.rIdString (rid + 1))
        (DocxAppender.mediaFileName now k)) a (rid + 1) hmin'
    constructor
    · rw [hfold, ih1]
      have hz : DocxAppender.mediaZip now (zipSet z (DocxAppender.wordMediaPath now k) img)
          (k + 1) rest = DocxAppender.mediaZip now z k (img :: rest) := rfl
      have htags : (b ++ DocxAppender.relationshipTag (DocxAppender.rIdString (rid + 1))
            (DocxAppender.mediaFileName now k)) ++
            DocxAppender.relTags now (rid + 1) (k + 1) rest.length =
          b ++ DocxAppender.relTags now rid k (img :: rest).length := by
        rw [List.append_assoc]
        rfl
      have hfr : (app ++ DocxAppender.pageBreakImageXml (DocxAppender.rIdString (rid + 1))) ++
            DocxAppender.fragsConcat (rid + 1) rest.length =
          app ++ DocxAppender.fragsConcat rid (img :: rest).length := by
        rw [List.append_assoc]
        rfl
      rw [hz, htags, hfr]
      have hr : rid + 1 + rest.length = rid + (img :: rest).length := by
        simp [List.length_cons]
        omega
      rw [hr]
    · intro i hi
      have htags : (b ++ DocxAppender.relationshipTag (DocxAppender.rIdString (rid + 1))
            (DocxAppender.mediaFileName now k)) ++
            DocxAppender.relTags now (rid + 1) (k + 1) rest.length =
          b ++ DocxAppender.relTags now rid k (img :: rest).length := by
        rw [List.append_assoc]
        rfl
      rw [← htags] at hi ⊢
      exact ih2 i hi

theorem takeWhile_append_all {p : Char → Bool} :
    ∀ (u v : Str), (∀ c ∈ u, p c = true) → (∀ c ∈ v.take 1, p c = false) →
      (u ++ v).takeWhile p = u := by
  intro u
  induction u with
  | nil =>
    intro v _ hv
    cases v with
    | nil => rfl
    | cons c rest =>
      have hc : p c = false := hv c (by simp)
      simp [List.takeWhile_cons, hc]
  | cons c u' ih =>
    intro v hu hv
    have hc : p c = true := hu c (List.mem_cons_self _ _)
    simp only [List.cons_append, List.takeWhile_cons, hc]
    simp only [if_true]
    rw [ih v (fun x hx => hu x (List.mem_cons_of_mem _ hx)) hv]

theorem mediaFileName_inj {now p q : Nat}
    (h : DocxAppender.mediaFileName now p = DocxAppender.mediaFileName now q) : p = q := by
  have hshape : ∀ r : Nat, DocxAppender.mediaFileName now r =
      ("media/appendix_img_".toList ++ (Nat.repr now).toList ++ ['_']) ++
        ((Nat.repr r).toList ++ ".jpg".toList) := by
    intro r
    rw [DocxAppender.mediaFileName]
    simp [List.append_assoc]
  rw [hshape p, hshape q] at h
  have h2 := List.append_cancel_left h
  have htw : ∀ r : Nat, ((Nat.repr r).toList ++ ".jpg".toList).takeWhile Char.isDigit =
      (Nat.repr r).toList := by
    intro r
    exact takeWhile_append_all _ _ (repr_toList_digits r) (by decide)
  have h3 : (Nat.repr p).toList = (Nat.repr q).toList := by
    rw [← htw p, ← htw q, h2]
  exact repr_toList_injective h3

theorem wordMediaPath_inj {now p q : Nat}
    (h : DocxAppender.wordMediaPath now p = DocxAppender.wordMediaPath now q) : p = q :=
  mediaFileName_inj (List.append_cancel_left h)

theorem wordMediaPath_get5 (now i : Nat) :
    (DocxAppender.wordMediaPath now i).get? 5 = some 'm' := by
  rw [DocxAppender.wordMediaPath, List.get?_append_right (by decide)]
  rw [DocxAppender.mediaFileName]
  rfl

theorem wordMediaPath_ne_docPath (now i : Nat) :
    DocxAppender.wordMediaPath now i ≠ docPath := by
  intro h
  have hg := congrArg (fun l => List.get? l 5) h
  simp only at hg
  rw [wordMediaPath_get5] at hg
  have hd : docPath.get? 5 = some 'd' := by decide
  rw [hd] at hg
  cases hg

theorem wordMediaPath_ne_relsPath (now i : Nat) :
    DocxAppender.wordMediaPath now i ≠ DocxAppender.relsPath := by
  intro h
  have hg := congrArg (fun l => List.get? l 5) h
  simp only at hg
  rw [wordMediaPath_get5] at hg
  have hd : DocxAppender.relsPath.get? 5 = some '_' := by decide
  rw [hd] at hg
  cases hg

theorem relsPath_ne_docPath : DocxAppender.relsPath ≠ docPath := by decide

theorem mediaZip_lookup_other (now : Nat) :
    ∀ (imgs : List Str) (z : Zip) (k : Nat) (name : PartName),
      (∀ j, k ≤ j → ¬ name = DocxAppender.wordMediaPath now j) →
      zipFile (DocxAppender.mediaZip now z k imgs) name = zipFile z name := by
  intro imgs
  induction imgs with
  | nil => intro z k name _; rfl
  | cons img rest ih =>
    intro z k name hname
    rw [DocxAppender.mediaZip,
      ih _ (k + 1) _ (fun j hj => hname j (Nat.le_trans (Nat.le_succ k) hj))]
    exact zipFile_zipSet_other z _ name img (fun hh => hname k (Nat.le_refl k) hh.symm)

theorem mediaZip_lookup_hit (now : Nat) :
    ∀ (imgs : List Str) (z : Zip) (k i : Nat) (img : Str), imgs.get? i = some img →
      zipFile (DocxAppender.mediaZip now z k imgs) (DocxAppender.wordMediaPath now (k + i)) =
        some img := by
  intro imgs
  induction imgs with
  | nil => intro z k i img h; cases h
  | cons img0 rest ih =>
    intro z k i img h
    cases i with
    | zero =>
      simp only [List.get?] at h
      injection h with h
      subst h
      rw [DocxAppender.mediaZip, Nat.add_zero]
      rw [mediaZip_lookup_other now rest _ (k + 1) _ ?hother]
      · exact zipFile_zipSet_same z _ _
      case hother =>
        intro j hj he
        have := wordMediaPath_inj he
        omega
    | succ i' =>
      simp only [List.get?] at h
      rw [DocxAppender.mediaZip]
      have hki : k + (i' + 1) = (k + 1) + i' := by omega
      rw [hki]
      exact ih _ (k + 1) i' img h

theorem isPrefixOf_nil_false {pat : Str} (hpat : pat ≠ []) :
    pat.isPrefixOf ([] : Str) = false := by
  rw [← Bool.not_eq_true, List.isPrefixOf_iff_prefix]
  intro h
  exact hpat (by simpa using h)

theorem lastOccAux_none {pat : Str} (hpat : pat ≠ []) :
    ∀ {s : Str}, lastOccAux pat s = none → ∀ j, pat.isPrefixOf (s.drop j) = false := by
  intro s
  induction s with
  | nil =>
    intro _ j
    rw [List.drop_nil]
    exact isPrefixOf_nil_false hpat
  | cons c rest ih =>
    intro h j
    rw [lastOccAux] at h
    cases hrec : lastOccAux pat rest with
    | some i => rw [hrec] at h; cases h
    | none =>
      rw [hrec] at h
      by_cases hp : pat.isPrefixOf (c :: rest) = true
      · rw [if_pos hp] at h; cases h
      · cases j with
        | zero =>
          rw [List.drop_zero]
          exact Bool.not_eq_true _ ▸ hp
        | succ j' =>
          rw [List.drop_succ_cons]
          exact ih hrec j'

theorem lastOccAux_sound {pat : Str} (hpat : pat ≠ []) :
    ∀ {s : Str} {i : Nat}, lastOccAux pat s = some i →
      pat.isPrefixOf (s.drop i) = true ∧ ∀ j, i < j → pat.isPrefixOf (s.drop j) = false := by
  intro s
  induction s with
  | nil =>
    intro i h
    rw [lastOccAux, if_neg (by rw [isPrefixOf_nil_false hpat]; simp)] at h
    cases h
  | cons c rest ih =>
    intro i h
    rw [lastOccAux] at h
    cases hrec : lastOccAux pat rest with
    | some i' =>
      rw [hrec] at h
      injection h with h
      subst h
      obtain ⟨ih1, ih2⟩ := ih hrec
      refine ⟨by rw [List.drop_succ_cons]; exact ih1, ?_⟩
      intro j hj
      cases j with
      | zero => exact absurd hj (by omega)
      | succ j' =>
        rw [List.drop_succ_cons]
        exact ih2 j' (by omega)
    | none =>
      rw [hrec] at h
      by_cases hp : pat.isPrefixOf (c :: rest) = true
      · rw [if_pos hp] at h
        injection h with h
        subst h
        refine ⟨by rw [List.drop_zero]; exact hp, ?_⟩
        intro j hj
        cases j with
        | zero => exact absurd hj (by omega)
        | succ j' =>
          rw [List.drop_succ_cons]
          exact lastOccAux_none hpat hrec j'
      · rw [if_neg hp] at h
        cases h

theorem lastIndexOfSplit_sound {pat s bd ad : Str} (hpat : pat ≠ [])
    (h : lastIndexOfSplit pat s = some (bd, ad)) :
    s = bd ++ pat ++ ad ∧ ∀ u v, s = u ++ pat ++ v → u.length ≤ bd.length := by
  rw [lastIndexOfSplit] at h
  cases hlo : lastOccAux pat s with
  | none => rw [hlo] at h; cases h
  | some i =>
    rw [hlo] at h
    simp only [Option.some.injEq, Prod.mk.injEq] at h
    obtain ⟨rfl, rfl⟩ := h
    obtain ⟨h1, h2⟩ := lastOccAux_sound hpat hlo
    obtain ⟨t, ht⟩ := List.isPrefixOf_iff_prefix.mp h1
    have hi : i ≤ s.length := by
      by_contra hcon
      push_neg at hcon
      rw [List.drop_eq_nil_of_le (le_of_lt hcon)] at ht
      exact hpat (by simpa using (List.append_eq_nil.mp ht).1)
    have hdecomp : s = s.take i ++ pat ++ t := by
      conv_lhs => rw [← List.take_append_drop i s]
      rw [← ht, List.append_assoc]
    have hT : t = s.drop (i + pat.length) := by
      have hcg := congrArg (List.drop (i + pat.length)) hdecomp
      have hnil : List.drop (i + pat.length) (List.take i s) = [] :=
        List.drop_eq_nil_of_le (by rw [List.length_take]; omega)
      rw [List.append_assoc, List.drop_append_eq_append_drop, hnil,
        List.nil_append, List.length_take, min_eq_left hi,
        show i + pat.length - i = pat.length from by omega,
        List.drop_left pat t] at hcg
      exact hcg.symm
    constructor
    · rw [← hT]
      exact hdecomp
    · intro u v huv
      have hpre : pat.isPrefixOf (s.drop u.length) = true := by
        rw [huv, List.append_assoc, List.drop_left]
        exact List.isPrefixOf_iff_prefix.mpr ⟨v, rfl⟩
      have hle : u.length ≤ i := by
        by_contra hcon
        push_neg at hcon
        rw [h2 u.length hcon] at hpre
        cases hpre
      rw [List.length_take]
      omega

theorem mem_foldl_max (l : List Nat) : ∀ (acc : Nat), (∀ v ∈ l, v ≤ l.foldl max acc) ∧
    acc ≤ l.foldl max acc := by
  induction l with
  | nil => intro acc; exact ⟨fun v hv => absurd hv (by simp), Nat.le_refl _⟩
  | cons x rest ih =>
    intro acc
    obtain ⟨ih1, ih2⟩ := ih (max acc x)
    refine ⟨?_, Nat.le_trans (Nat.le_max_left acc x) ih2⟩
    intro v hv
    rcases List.mem_cons.mp hv with rfl | hv
    · exact Nat.le_trans (Nat.le_max_right acc v) ih2
    · exact ih1 v hv

/-! ## The markup-tolerant matcher: soundness -/

theorem matchSep_zero (cs : List Char) (t : Str) : matchSep 0 cs t = none := rfl

theorem matchSep_succ_nil (fuel : Nat) (t : Str) :
    matchSep (fuel + 1) [] t = some ([], t) := rfl

theorem matchSep_succ_cons (fuel : Nat) (c : Char) (cs : List Char) (t : Str) :
    matchSep (fuel + 1) (c :: cs) t =
      match consumeTag t with
      | some (tag, t') =>
        match matchSep fuel (c :: cs) t' with
        | some (m, r) => some (tag ++ m, r)
        | none =>
          match t with
          | x :: xs =>
            if x = c then
              match matchSep fuel cs xs with
              | some (m, r) => some (x :: m, r)
              | none => none
            else none
          | [] => none
      | none =>
        match t with
        | x :: xs =>
          if x = c then
            match matchSep fuel cs xs with
            | some (m, r) => some (x :: m, r)
            | none => none
          else none
        | [] => none := rfl

theorem matchSep_append :
    ∀ (fuel : Nat) (cs : List Char) (t m r : Str), matchSep fuel cs t = some (m, r) →
      m ++ r = t := by
  intro fuel
  induction fuel with
  | zero => intro cs t m r h; rw [matchSep_zero] at h; cases h
  | succ fuel ih =>
    intro cs t m r h
    cases cs with
    | nil =>
      rw [matchSep_succ_nil] at h
      simp only [Option.some.injEq, Prod.mk.injEq] at h
      obtain ⟨rfl, rfl⟩ := h
      rfl
    | cons c cs' =>
      rw [matchSep_succ_cons] at h
      split at h
      · next tag t' hct =>
        split at h
        · next m' r' hms =>
          simp only [Option.some.injEq, Prod.mk.injEq] at h
          obtain ⟨rfl, rfl⟩ := h
          rw [List.append_assoc, ih _ _ _ _ hms]
          exact (consumeTag_append hct).1
        · next hms =>
          split at h
          · next x xs =>
            split at h
            · next hx =>
              split at h
              · next m2 r2 hms2 =>
                simp only [Option.some.injEq, Prod.mk.injEq] at h
                obtain ⟨rfl, rfl⟩ := h
                rw [List.cons_append, ih _ _ _ _ hms2]
              · exact absurd h (by simp)
            · exact absurd h (by simp)
          · exact absurd h (by simp)
      · next hct =>
        split at h
        · next x xs =>
          split at h
          · next hx =>
            split at h
            · next m2 r2 hms2 =>
              simp only [Option.some.injEq, Prod.mk.injEq] at h
              obtain ⟨rfl, rfl⟩ := h
              rw [List.cons_append, ih _ _ _ _ hms2]
            · exact absurd h (by simp)
          · exact absurd h (by simp)
        · exact absurd h (by simp)

theorem consumeTag_tagsRun {t tag rest : Str} (h : consumeTag t = some (tag, rest)) :
    ∀ ts, TagsRun ts → TagsRun (tag ++ ts) := by
  intro ts hts
  match t with
  | [] => simp [consumeTag] at h
  | c :: t' =>
    rw [consumeTag] at h
    by_cases hc : c = '<'
    · subst hc
      simp only [if_pos rfl] at h
      cases hdw : t'.dropWhile (· != '>') with
      | nil => rw [hdw] at h; simp at h
      | cons d after =>
        rw [hdw] at h
        by_cases hd : d = '>'
        · subst hd
          by_cases htw : t'.takeWhile (· != '>') = []
          · simp [htw] at h
          · simp only [if_pos rfl, if_neg htw, Option.some.injEq, Prod.mk.injEq] at h
            obtain ⟨rfl, rfl⟩ := h
            have hmem : ∀ x ∈ t'.takeWhile (· != '>'), x ≠ '>' := by
              intro x hx
              have := List.mem_takeWhile_imp hx
              simpa using this
            have heq : '<' :: (t'.takeWhile (· != '>') ++ ['>']) ++ ts =
                '<' :: (t'.takeWhile (· != '>') ++ '>' :: ts) := by
              simp
            rw [heq]
            exact TagsRun.cons _ _ htw hmem hts
        · simp [hd] at h
    · simp [hc] at h

theorem matchSep_sepMatches :
    ∀ (fuel : Nat) (cs : List Char) (t m r : Str), matchSep fuel cs t = some (m, r) →
      SepMatches cs m := by
  intro fuel
  induction fuel with
  | zero => intro cs t m r h; rw [matchSep_zero] at h; cases h
  | succ fuel ih =>
    intro cs t m r h
    cases cs with
    | nil =>
      rw [matchSep_succ_nil] at h
      simp only [Option.some.injEq, Prod.mk.injEq] at h
      obtain ⟨rfl, rfl⟩ := h
      exact SepMatches.nil
    | cons c cs' =>
      rw [matchSep_succ_cons] at h
      split at h
      · next tag t' hct =>
        split at h
        · next m' r' hms =>
          simp only [Option.some.injEq, Prod.mk.injEq] at h
          obtain ⟨rfl, rfl⟩ := h
          have hm' := ih _ _ _ _ hms
          cases hm' with
          | cons c cs' ts m'' hts hsm =>
            have hassoc : tag ++ (ts ++ c :: m'') = (tag ++ ts) ++ c :: m'' :=
              (List.append_assoc tag ts (c :: m'')).symm
            rw [hassoc]
            exact SepMatches.cons c cs' (tag ++ ts) m'' (consumeTag_tagsRun hct ts hts) hsm
        · next hms =>
          split at h
          · next x xs =>
            split at h
            · next hx =>
              split at h
              · next m2 r2 hms2 =>
                simp only [Option.some.injEq, Prod.mk.injEq] at h
                obtain ⟨rfl, rfl⟩ := h
                subst hx
                exact SepMatches.cons x cs' [] m2 TagsRun.nil (ih _ _ _ _ hms2)
              · exact absurd h (by simp)
            · exact absurd h (by simp)
          · exact absurd h (by simp)
      · next hct =>
        split at h
        · next x xs =>
          split at h
          · next hx =>
            split at h
            · next m2 r2 hms2 =>
              simp only [Option.some.injEq, Prod.mk.injEq] at h
              obtain ⟨rfl, rfl⟩ := h
              subst hx
              exact SepMatches.cons x cs' [] m2 TagsRun.nil (ih _ _ _ _ hms2)
            · exact absurd h (by simp)
          · exact absurd h (by simp)
        · exact absurd h (by simp)

theorem matchPat_nil (t : Str) : matchPat [] t = some ([], t) := rfl

theorem matchPat_cons (c : Char) (cs : List Char) (t : Str) :
    matchPat (c :: cs) t =
      match t with
      | x :: xs =>
        if x = c then
          match matchSep (xs.length + 1) cs xs with
          | some (m, r) => some (x :: m, r)
          | none => none
        else none
      | [] => none := rfl

theorem matchPat_append {search : List Char} {t m r : Str}
    (h : matchPat search t = some (m, r)) : m ++ r = t := by
  cases search with
  | nil =>
    rw [matchPat_nil] at h
    simp only [Option.some.injEq, Prod.mk.injEq] at h
    obtain ⟨rfl, rfl⟩ := h
    rfl
  | cons c cs =>
    rw [matchPat_cons] at h
    split at h
    · next x xs =>
      split at h
      · next hx =>
        split at h
        · next m' r' hms =>
          simp only [Option.some.injEq, Prod.mk.injEq] at h
          obtain ⟨rfl, rfl⟩ := h
          rw [List.cons_append, matchSep_append _ _ _ _ _ hms]
        · exact absurd h (by simp)
      · exact absurd h (by simp)
    · exact absurd h (by simp)

theorem matchPat_markupTolerant {search : List Char} {t m r : Str}
    (h : matchPat search t = some (m, r)) : MarkupTolerantMatch search m := by
  cases search with
  | nil =>
    rw [matchPat_nil] at h
    simp only [Option.some.injEq, Prod.mk.injEq] at h
    obtain ⟨rfl, rfl⟩ := h
    rfl
  | cons c cs =>
    rw [matchPat_cons] at h
    split at h
    · next x xs =>
      split at h
      · next hx =>
        split at h
        · next m' r' hms =>
          simp only [Option.some.injEq, Prod.mk.injEq] at h
          obtain ⟨rfl, rfl⟩ := h
          exact ⟨m', by rw [hx], matchSep_sepMatches _ _ _ _ _ hms⟩
        · exact absurd h (by simp)
      · exact absurd h (by simp)
    · exact absurd h (by simp)

theorem searchMatcher_le (search : List Char) :
    ∀ (t : Str) (n : Nat) (a : Unit), searchMatcher search t = some (n, a) → n ≤ t.length := by
  intro t n a h
  rw [searchMatcher] at h
  cases hmp : matchPat search t with
  | none => rw [hmp] at h; exact absurd h (by simp)
  | some p =>
    obtain ⟨m, r⟩ := p
    rw [hmp] at h
    simp only [Option.map_some', Option.some.injEq, Prod.mk.injEq] at h
    obtain ⟨rfl, -⟩ := h
    have happ := matchPat_append hmp
    calc m.length ≤ m.length + r.length := Nat.le_add_right _ _
      _ = t.length := by rw [← List.length_append, happ]

theorem searchMatcher_matched {search : List Char} {m u : Str} {a : Unit}
    (h : searchMatcher search (m ++ u) = some (m.length, a)) :
    MarkupTolerantMatch search m := by
  rw [searchMatcher] at h
  cases hmp : matchPat search (m ++ u) with
  | none => rw [hmp] at h; exact absurd h (by simp)
  | some p =>
    obtain ⟨m', r'⟩ := p
    rw [hmp] at h
    simp only [Option.map_some', Option.some.injEq, Prod.mk.injEq] at h
    have hlen : m'.length = m.length := h.1
    have happ := matchPat_append hmp
    have hmm : m' = m := by
      have htake := congrArg (List.take m'.length) happ
      rw [List.take_left] at htake
      rw [htake, hlen, List.take_left']
      rfl
    rw [← hmm]
    exact matchPat_markupTolerant hmp

/-! ## Claim C1 -/

/-- Claim C1 (amended: restricted to search texts containing no regex
metacharacter, the restriction the counterexample forces): for every main
text part, metacharacter-free search text, tag name and selection set, the
mutating pass runs the case-sensitive markup-tolerant pattern over the part —
every matched segment satisfies the declarative markup-tolerant pattern —
assigns the matches zero-based sequential indices in document order (the
running counter of `rebuild`), replaces exactly the matches whose index is in
the set with the literal token `\x7b\x7btagName\x7d\x7d`, and leaves every
non-selected match and all other content byte-for-byte unchanged: gluing the
scanned segments back without modification reconstructs the part exactly. -/
theorem replaceSpecificOccurrences_pass_spec (xml search tagName : Str) (indices : List Nat)
    (hplain : search.any isRegexSpecialChar = false)
    (hfound : (runScan (searchMatcher search) xml).1 ≠ []) :
    xml = glueSegs (runScan (searchMatcher search) xml) ∧
    (∀ seg ∈ (runScan (searchMatcher search) xml).1, MarkupTolerantMatch search seg.2.1) ∧
    replacePassXml xml search tagName indices =
      .ok (rebuild (fun m _ i => if indices.contains i then placeholderToken tagName else m)
        (runScan (searchMatcher search) xml).1 0 (runScan (searchMatcher search) xml).2) := by
  have hle := searchMatcher_le search
  refine ⟨?_, ?_, ?_⟩
  · rw [runScan]
    exact (scanM_glue hle _ xml (Nat.lt_succ_self _)).symm
  · intro seg hseg
    rw [runScan] at hseg
    obtain ⟨u, hu⟩ := scanM_matched hle _ xml (Nat.lt_succ_self _) seg hseg
    exact searchMatcher_matched hu
  · have hlen : ¬ ((runScan (searchMatcher search) xml).1.length = 0) := by
      simpa [List.length_eq_zero] using hfound
    simp only [replacePassXml, hplain, Bool.false_eq_true, if_false, hlen, if_neg hlen]

/-- Claim C1 counterexample: the search text `.` contains a regex
metacharacter; the source escapes it and then joins the characters of the
*escaped* text with the tag-permitting group, splitting the `\.` escape pair
and leaving the group of the separator unbalanced, so `new RegExp` raises a
`SyntaxError` and the call returns no replacement at all — on the part `x.y`
with selection `{0}` the result is the invalid-pattern error rather than the
replacement `x\x7b\x7bt\x7d\x7dy` that the claim requires. -/
theorem replacePass_special_char_counterexample :
    replacePassXml "x.y".toList ".".toList "t".toList [0] = .error .invalidPattern ∧
    replacePassXml "x.y".toList ".".toList "t".toList [0] ≠
      .ok ("x".toList ++ placeholderToken "t".toList ++ "y".toList) :=
  ⟨by decide, by decide⟩

set_option maxRecDepth 20000 in
/-- Witness: the amended C1 theorem applied to the Scenario-C-style input
(search text `Acme` occurring once split by markup and once plain, selection
`{0}`), with the concrete evaluation showing the selected split occurrence
becomes the placeholder token and the rest of the part stays byte-for-byte
intact. -/
theorem replaceSpecificOccurrences_pass_spec_witness :
    ("Acme".toList.any isRegexSpecialChar = false) ∧
    ((runScan (searchMatcher "Acme".toList) "Ac<w:r>me y Acme".toList).1 ≠ []) ∧
    ("Ac<w:r>me y Acme".toList =
        glueSegs (runScan (searchMatcher "Acme".toList) "Ac<w:r>me y Acme".toList) ∧
      (∀ seg ∈ (runScan (searchMatcher "Acme".toList) "Ac<w:r>me y Acme".toList).1,
        MarkupTolerantMatch "Acme".toList seg.2.1) ∧
      replacePassXml "Ac<w:r>me y Acme".toList "Acme".toList "client".toList [0] =
        .ok (rebuild
          (fun m _ i => if ([0] : List Nat).contains i then placeholderToken "client".toList else m)
          (runScan (searchMatcher "Acme".toList) "Ac<w:r>me y Acme".toList).1 0
          (runScan (searchMatcher "Acme".toList) "Ac<w:r>me y Acme".toList).2)) ∧
    replacePassXml "Ac<w:r>me y Acme".toList "Acme".toList "client".toList [0] =
      .ok ("\x7b\x7bclient\x7d\x7d y Acme".toList) :=
  ⟨by decide, by decide,
    replaceSpecificOccurrences_pass_spec "Ac<w:r>me y Acme".toList "Acme".toList
      "client".toList [0] (by decide) (by decide),
    by decide⟩

/-! ## Claim C2 -/

theorem replacePassXml_textNotFound {xml search : Str} (tagName : Str) (indices : List Nat)
    (hplain : search.any isRegexSpecialChar = false)
    (hzero : (runScan (searchMatcher search) xml).1 = []) :
    replacePassXml xml search tagName indices = .error .textNotFound := by
  simp only [replacePassXml, hplain, Bool.false_eq_true, if_false, hzero, List.length_nil]
  rfl

/-- Claim C2: when the case-sensitive mutating pass finds zero matches for
the search text, `replaceSpecificOccurrences` raises the text-not-found
error.  In the source the throw happens before `zip.file` is called and
before `load` is re-run; correspondingly the model returns the error without
constructing any new state, so the stored archive is the caller's unchanged
pre-call archive and no reload occurs. -/
theorem replaceSelected_zero_matches_textNotFound (st : DocxManagerState)
    (search tagName xml : Str) (indices : List Nat)
    (hdoc : zipFile st.zip docPath = some xml)
    (hplain : search.any isRegexSpecialChar = false)
    (hzero : (runScan (searchMatcher search) xml).1 = []) :
    replaceSpecificOccurrencesOp st search tagName indices = .error .textNotFound := by
  simp only [replaceSpecificOccurrencesOp, hdoc]
  rw [replacePassXml_textNotFound tagName indices hplain hzero]

/-- Witness: the text-not-found behaviour at a concrete loaded package whose
main text part `abc` does not contain the search text `z`. -/
theorem replaceSelected_zero_matches_witness :
    zipFile [(docPath, "abc".toList)] docPath = some "abc".toList ∧
    ("z".toList.any isRegexSpecialChar = false) ∧
    (runScan (searchMatcher "z".toList) "abc".toList).1 = [] ∧
    replaceSpecificOccurrencesOp ⟨delimiterDouble, [(docPath, "abc".toList)]⟩ "z".toList
        "t".toList [] = .error .textNotFound :=
  ⟨by decide, by decide, by decide,
    replaceSelected_zero_matches_textNotFound ⟨delimiterDouble, [(docPath, "abc".toList)]⟩
      "z".toList "t".toList "abc".toList [] (by decide) (by decide) (by decide)⟩

/-! ## Claim C10 -/

/-- Claim C10: calling `appendImages` with an empty image list is an identity:
the input blob itself is returned (the source checks `images.length === 0`
before it opens the archive), so no part is added and the relationships part
is untouched. -/
theorem appendImages_empty_list_identity (now : Nat) (blob : Zip) :
    DocxAppender.appendImages now blob [] = blob := by
  simp [DocxAppender.appendImages]

/-! ## Claim C6 -/

/-- Claim C6: delimiter detection selects the single-marker convention exactly
when the package opens, and the main text part's count of `{{` is zero while
its count of `{` is positive (an absent part counts as the empty string); in
every other case — including an unopenable package, modelled as `none` — it
selects the double-marker convention.  The second conjunct records that the
detector always returns one of the two conventions and never fails. -/
theorem detectDelimiters_single_iff (pkg : Option Zip) :
    (detectDelimiters pkg = delimiterSingle ↔
      ∃ z, pkg = some z ∧
        countDoubleOpen ((zipFile z docPath).getD []) = 0 ∧
        0 < ((zipFile z docPath).getD []).count '{') ∧
    (detectDelimiters pkg = delimiterSingle ∨ detectDelimiters pkg = delimiterDouble) := by
  cases pkg with
  | none =>
    refine ⟨⟨fun h => absurd h (by decide), ?_⟩, Or.inr rfl⟩
    rintro ⟨z, hz, -⟩
    cases hz
  | some z =>
    simp only [detectDelimiters]
    by_cases hc : countDoubleOpen ((zipFile z docPath).getD []) = 0 ∧
        ((zipFile z docPath).getD []).count '{' > 0
    · rw [if_pos hc]
      exact ⟨⟨fun _ => ⟨z, rfl, hc.1, hc.2⟩, fun _ => rfl⟩, Or.inl rfl⟩
    · rw [if_neg hc]
      refine ⟨⟨fun h => absurd h (by decide), ?_⟩, Or.inr rfl⟩
      rintro ⟨z', hz', h1, h2⟩
      cases hz'
      exact absurd ⟨h1, h2⟩ hc

/-! ## Claim C9 -/

/-- Claim C9: healing modifies only the main text part: every other part of
the healed package is identical to the corresponding input part, and when the
main text part is absent the input package is returned unchanged. -/
theorem healDocumentXml_frame (mode : Bool) (z : Zip) :
    (∀ name, name ≠ docPath → zipFile (healDocumentXml mode z) name = zipFile z name) ∧
    (zipFile z docPath = none → healDocumentXml mode z = z) := by
  constructor
  · intro name hn
    unfold healDocumentXml
    cases h : zipFile z docPath with
    | none => rfl
    | some xml => exact zipFile_zipSet_other z docPath name _ (fun hh => hn hh.symm)
  · intro h
    unfold healDocumentXml
    rw [h]

/-- Witness for the healing frame property at a concrete two-part package and
a concrete document-free package. -/
theorem healDocumentXml_frame_witness :
    zipFile (healDocumentXml true [(docPath, ['a']), (['s'], ['x'])]) ['s'] =
        zipFile [(docPath, ['a']), (['s'], ['x'])] ['s'] ∧
    healDocumentXml true [(['s'], ['x'])] = [(['s'], ['x'])] :=
  ⟨(healDocumentXml_frame true [(docPath, ['a']), (['s'], ['x'])]).1 ['s'] (by decide),
   (healDocumentXml_frame true [(['s'], ['x'])]).2 (by decide)⟩

/-! ## Claim C8 -/

/-- Claim C8 (code bug): healing is not idempotent.  On the main text part
`\x7b<t>\x7b<t>\x7b` the first heal collapses the leftmost split-marker span
and yields `\x7b\x7b<t>\x7b`; healing that output again collapses the span
that now starts at offset 1 and yields `\x7b\x7b\x7b`, so healing an
already-healed part changes its bytes. -/
theorem normalize_not_idempotent_at_counterexample :
    TagNormalizer.normalize ("\x7b<t>\x7b<t>\x7b".toList) true = "\x7b\x7b<t>\x7b".toList ∧
    TagNormalizer.normalize (TagNormalizer.normalize ("\x7b<t>\x7b<t>\x7b".toList) true) true =
      "\x7b\x7b\x7b".toList ∧
    TagNormalizer.normalize (TagNormalizer.normalize ("\x7b<t>\x7b<t>\x7b".toList) true) true ≠
      TagNormalizer.normalize ("\x7b<t>\x7b<t>\x7b".toList) true :=
  ⟨by decide, by decide, by decide⟩

/-! ## Claim C3: counterexample -/

/-- Claim C3 counterexample: with a non-empty image list and the main text
part absent, `appendImages` is not a passthrough: the result contains a fresh
media part and a rewritten relationships part, so it differs from the input
package. -/
theorem appendImages_missing_doc_not_passthrough :
    DocxAppender.appendImages 0
        [(DocxAppender.relsPath, "<Relationships></Relationships>".toList)] ["I".toList] ≠
      [(DocxAppender.relsPath, "<Relationships></Relationships>".toList)] := by decide


/-- C4: on a package whose relationships part is present and contains the
closing root tag, and whose main text part contains the closing body tag,
`appendImages` with a non-empty image list: rewrites the relationships part by
inserting, immediately before the first occurrence of the closing root tag,
one relationship entry per image carrying identifiers `rId(m+1) … rId(m+n)` in
input order, where `m = getLastRId` is the maximum existing numeric identifier
suffix (`0` when none); splices the `n` page-break-plus-image fragments,
concatenated in input order and referencing those identifiers, immediately
before the last occurrence of the closing body tag; stores each image as a
media part; and the identifiers `m+1+j` exceed every existing identifier value
and are strictly increasing in `j`, hence collision-free. -/
theorem appendImages_spec (now : Nat) (blob : Zip) (images : List Str)
    (relsXml c d docXml bd ad : Str)
    (hne : images ≠ [])
    (hrels : zipFile blob DocxAppender.relsPath = some relsXml)
    (hsplit : splitOnFirst DocxAppender.relationshipsClose relsXml = some (c, d))
    (hdoc : zipFile blob docPath = some docXml)
    (hbody : lastIndexOfSplit DocxAppender.bodyClose docXml = some (bd, ad)) :
    zipFile (DocxAppender.appendImages now blob images) DocxAppender.relsPath =
      some ((c ++ DocxAppender.relTags now (DocxAppender.getLastRId relsXml) 0 images.length) ++
        DocxAppender.relationshipsClose ++ d) ∧
    docXml = bd ++ DocxAppender.bodyClose ++ ad ∧
    (∀ u v, docXml = u ++ DocxAppender.bodyClose ++ v → u.length ≤ bd.length) ∧
    zipFile (DocxAppender.appendImages now blob images) docPath =
      some (bd ++ DocxAppender.fragsConcat (DocxAppender.getLastRId relsXml) images.length ++
        DocxAppender.bodyClose ++ ad) ∧
    (∀ i img, images.get? i = some img →
      zipFile (DocxAppender.appendImages now blob images) (DocxAppender.wordMediaPath now i) =
        some img) ∧
    (∀ v ∈ DocxAppender.relIdValues relsXml, ∀ j, j < images.length →
      v < DocxAppender.getLastRId relsXml + 1 + j) ∧
    (∀ i j, i < j → j < images.length →
      DocxAppender.getLastRId relsXml + 1 + i < DocxAppender.getLastRId relsXml + 1 + j) := by
  obtain ⟨hsx, hmin0⟩ := splitOnFirst_sound hsplit
  subst hsx
  have hlen : ¬ images.length = 0 := fun h => hne (List.length_eq_zero.mp h)
  obtain ⟨hfold, _⟩ := appendImages_fold now images 0 blob ([] : Str) c d
    (DocxAppender.getLastRId (c ++ DocxAppender.relationshipsClose ++ d)) hmin0
  obtain ⟨hbx, hbmax⟩ := lastIndexOfSplit_sound (by decide) hbody
  have henum : images.enum = List.enumFrom 0 images := rfl
  have hz1 : ∀ (z : Zip) (cc : Str),
      zipFile (zipSet z DocxAppender.relsPath cc) docPath = zipFile z docPath :=
    fun z cc => zipFile_zipSet_other z _ _ cc relsPath_ne_docPath
  have hz2 : zipFile (DocxAppender.mediaZip now blob 0 images) docPath = some docXml := by
    rw [mediaZip_lookup_other now images blob 0 docPath
      (fun j _ h => wordMediaPath_ne_docPath now j h.symm)]
    exact hdoc
  have heval : DocxAppender.appendImages now blob images =
      zipSet
        (zipSet (DocxAppender.mediaZip now blob 0 images) DocxAppender.relsPath
          ((c ++ DocxAppender.relTags now
              (DocxAppender.getLastRId (c ++ DocxAppender.relationshipsClose ++ d)) 0
              images.length) ++ DocxAppender.relationshipsClose ++ d))
        docPath
        (bd ++ DocxAppender.fragsConcat
            (DocxAppender.getLastRId (c ++ DocxAppender.relationshipsClose ++ d)) images.length ++
          DocxAppender.bodyClose ++ ad) := by
    simp only [DocxAppender.appendImages, if_neg hlen, hrels, Option.getD_some, henum, hfold,
      hz1, hz2, hbody, List.nil_append]
  refine ⟨?_, hbx, hbmax, ?_, ?_, ?_, ?_⟩
  · rw [heval, zipFile_zipSet_other _ _ _ _ (Ne.symm relsPath_ne_docPath), zipFile_zipSet_same]
  · rw [heval, zipFile_zipSet_same]
  · intro i img him
    rw [heval, zipFile_zipSet_other _ _ _ _ (Ne.symm (wordMediaPath_ne_docPath now i)),
      zipFile_zipSet_other _ _ _ _ (Ne.symm (wordMediaPath_ne_relsPath now i))]
    have hh := mediaZip_lookup_hit now images blob 0 i img him
    rw [Nat.zero_add] at hh
    exact hh
  · intro v hv j hj
    have hle : v ≤ DocxAppender.getLastRId (c ++ DocxAppender.relationshipsClose ++ d) :=
      (mem_foldl_max (DocxAppender.relIdValues
        (c ++ DocxAppender.relationshipsClose ++ d)) 0).1 v hv
    omega
  · intro i j hij hj
    omega

set_option maxRecDepth 40000 in
/-- C4 witness: appending two images to the concrete two-part package `apBlob`
whose relationships part already holds `rId3`. -/
theorem appendImages_spec_witness :
    zipFile (DocxAppender.appendImages 7 apBlob apImages) DocxAppender.relsPath =
      some ((apRelsBefore ++
        DocxAppender.relTags 7 (DocxAppender.getLastRId apRels) 0 apImages.length) ++
        DocxAppender.relationshipsClose ++ []) :=
  (appendImages_spec 7 apBlob apImages apRels apRelsBefore [] apDoc apDocBefore apDocAfter
    (by decide) (by decide) (by decide) (by decide) (by decide)).1


/-- C3 (amended): with a non-empty image list, when the main text part is
absent or contains no closing body tag, `appendImages` does not throw and
leaves the main text part exactly as it found it (no fragment is spliced), but
it is not a passthrough: it still rewrites the relationships part, inserting
one relationship entry per image before the closing root tag, and still adds
one media part per image. -/
theorem appendImages_no_anchor_spec (now : Nat) (blob : Zip) (images : List Str)
    (relsXml c d : Str)
    (hne : images ≠ [])
    (hrels : zipFile blob DocxAppender.relsPath = some relsXml)
    (hsplit : splitOnFirst DocxAppender.relationshipsClose relsXml = some (c, d))
    (hanchor : zipFile blob docPath = none ∨
      ∃ docXml, zipFile blob docPath = some docXml ∧
        lastIndexOfSplit DocxAppender.bodyClose docXml = none) :
    zipFile (DocxAppender.appendImages now blob images) DocxAppender.relsPath =
      some ((c ++ DocxAppender.relTags now (DocxAppender.getLastRId relsXml) 0 images.length) ++
        DocxAppender.relationshipsClose ++ d) ∧
    zipFile (DocxAppender.appendImages now blob images) docPath = zipFile blob docPath ∧
    (∀ i img, images.get? i = some img →
      zipFile (DocxAppender.appendImages now blob images) (DocxAppender.wordMediaPath now i) =
        some img) := by
  obtain ⟨hsx, hmin0⟩ := splitOnFirst_sound hsplit
  subst hsx
  have hlen : ¬ images.length = 0 := fun h => hne (List.length_eq_zero.mp h)
  obtain ⟨hfold, _⟩ := appendImages_fold now images 0 blob ([] : Str) c d
    (DocxAppender.getLastRId (c ++ DocxAppender.relationshipsClose ++ d)) hmin0
  have henum : images.enum = List.enumFrom 0 images := rfl
  have hz1 : ∀ (z : Zip) (cc : Str),
      zipFile (zipSet z DocxAppender.relsPath cc) docPath = zipFile z docPath :=
    fun z cc => zipFile_zipSet_other z _ _ cc relsPath_ne_docPath
  have hmz : zipFile (DocxAppender.mediaZip now blob 0 images) docPath =
      zipFile blob docPath :=
    mediaZip_lookup_other now images blob 0 docPath
      (fun j _ h => wordMediaPath_ne_docPath now j h.symm)
  have heval : DocxAppender.appendImages now blob images =
      zipSet (DocxAppender.mediaZip now blob 0 images) DocxAppender.relsPath
        ((c ++ DocxAppender.relTags now
            (DocxAppender.getLastRId (c ++ DocxAppender.relationshipsClose ++ d)) 0
            images.length) ++ DocxAppender.relationshipsClose ++ d) := by
    rcases hanchor with hnone | ⟨docXml, hdoc, hnosplit⟩
    · have hz2 : zipFile (DocxAppender.mediaZip now blob 0 images) docPath = none := by
        rw [hmz]; exact hnone
      simp only [DocxAppender.appendImages, if_neg hlen, hrels, Option.getD_some, henum,
        hfold, hz1, hz2]
    · have hz2 : zipFile (DocxAppender.mediaZip now blob 0 images) docPath = some docXml := by
        rw [hmz]; exact hdoc
      simp only [DocxAppender.appendImages, if_neg hlen, hrels, Option.getD_some, henum,
        hfold, hz1, hz2, hnosplit]
  refine ⟨?_, ?_, ?_⟩
  · rw [heval, zipFile_zipSet_same]
  · rw [heval, zipFile_zipSet_other _ _ _ _ relsPath_ne_docPath]
    exact hmz
  · intro i img him
    rw [heval, zipFile_zipSet_other _ _ _ _ (Ne.symm (wordMediaPath_ne_relsPath now i))]
    have hh := mediaZip_lookup_hit now images blob 0 i img him
    rw [Nat.zero_add] at hh
    exact hh

set_option maxRecDepth 40000 in
/-- C3 witness: the package `apBlobNoDoc` has no main text part; appending two
images still rewrites the relationships part with the two new entries. -/
theorem appendImages_no_anchor_spec_witness :
    zipFile (DocxAppender.appendImages 7 apBlobNoDoc apImages) DocxAppender.relsPath =
      some ((apRelsBefore ++
        DocxAppender.relTags 7 (DocxAppender.getLastRId apRels) 0 apImages.length) ++
        DocxAppender.relationshipsClose ++ []) :=
  (appendImages_no_anchor_spec 7 apBlobNoDoc apImages apRels apRelsBefore []
    (by decide) (by decide) (by decide) (Or.inl (by decide))).1


/-! ## The modelled collation order: an order relation -/

theorem cmpNatList_eq_iff : ∀ {a b : List Nat}, TagDetector.cmpNatList a b = .eq ↔ a = b := by
  intro a
  induction a with
  | nil =>
    intro b
    cases b with
    | nil => simp [TagDetector.cmpNatList]
    | cons y ys => simp [TagDetector.cmpNatList]
  | cons x xs ih =>
    intro b
    cases b with
    | nil => simp [TagDetector.cmpNatList]
    | cons y ys =>
      rw [TagDetector.cmpNatList]
      by_cases h1 : x < y
      · simp [if_pos h1]
        omega
      · rw [if_neg h1]
        by_cases h2 : y < x
        · simp [if_pos h2]
          omega
        · rw [if_neg h2]
          have hxy : x = y := by omega
          simp [ih, hxy]

theorem cmpNatList_lt_trans : ∀ {a b c : List Nat},
    TagDetector.cmpNatList a b = .lt → TagDetector.cmpNatList b c = .lt →
    TagDetector.cmpNatList a c = .lt := by
  intro a
  induction a with
  | nil =>
    intro b c h1 h2
    cases b with
    | nil => exact h2
    | cons y ys =>
      cases c with
      | nil => rw [TagDetector.cmpNatList] at h2; cases h2
      | cons z zs => rw [TagDetector.cmpNatList]
  | cons x xs ih =>
    intro b c h1 h2
    cases b with
    | nil => rw [TagDetector.cmpNatList] at h1; cases h1
    | cons y ys =>
      cases c with
      | nil => rw [TagDetector.cmpNatList] at h2; cases h2
      | cons z zs =>
        rw [TagDetector.cmpNatList] at h1 h2 ⊢
        by_cases hxy : x < y
        · rw [if_pos hxy] at h1
          by_cases hyz : y < z
          · rw [if_pos hyz] at h2
            rw [if_pos (by omega)]
          · rw [if_neg hyz] at h2
            by_cases hzy : z < y
            · rw [if_pos hzy] at h2; cases h2
            · rw [if_neg hzy] at h2
              rw [if_pos (by omega)]
        · rw [if_neg hxy] at h1
          by_cases hyx : y < x
          · rw [if_pos hyx] at h1; cases h1
          · rw [if_neg hyx] at h1
            by_cases hyz : y < z
            · rw [if_pos hyz] at h2
              rw [if_pos (by omega)]
            · rw [if_neg hyz] at h2
              by_cases hzy : z < y
              · rw [if_pos hzy] at h2; cases h2
              · rw [if_neg hzy] at h2
                rw [if_neg (by omega), if_neg (by omega)]
                exact ih h1 h2

theorem cmpNatList_not_gt_trans {a b c : List Nat}
    (h1 : TagDetector.cmpNatList a b ≠ .gt) (h2 : TagDetector.cmpNatList b c ≠ .gt) :
    TagDetector.cmpNatList a c ≠ .gt := by
  cases hab : TagDetector.cmpNatList a b with
  | gt => exact absurd hab h1
  | eq => rw [cmpNatList_eq_iff.mp hab]; exact h2
  | lt =>
    cases hbc : TagDetector.cmpNatList b c with
    | gt => exact absurd hbc h2
    | eq =>
      rw [cmpNatList_eq_iff.mp hbc] at hab
      rw [hab]
      intro h; cases h
    | lt =>
      rw [cmpNatList_lt_trans hab hbc]
      intro h; cases h

theorem localeCompare_not_gt_trans {a b c : Str}
    (h1 : TagDetector.localeCompare a b ≠ .gt) (h2 : TagDetector.localeCompare b c ≠ .gt) :
    TagDetector.localeCompare a c ≠ .gt := by
  simp only [TagDetector.localeCompare] at h1 h2 ⊢
  cases hab : TagDetector.cmpNatList (a.map TagDetector.localeLowerNat)
      (b.map TagDetector.localeLowerNat) with
  | gt => rw [hab] at h1; exact absurd rfl h1
  | eq =>
    rw [hab] at h1
    have hlow := cmpNatList_eq_iff.mp hab
    rw [hlow]
    cases hbc : TagDetector.cmpNatList (b.map TagDetector.localeLowerNat)
        (c.map TagDetector.localeLowerNat) with
    | gt => rw [hbc] at h2; exact absurd rfl h2
    | lt => intro h; cases h
    | eq =>
      rw [hbc] at h2
      have h1c : TagDetector.cmpNatList (a.map TagDetector.localeCaseNat)
          (b.map TagDetector.localeCaseNat) ≠ .gt := h1
      have h2c : TagDetector.cmpNatList (b.map TagDetector.localeCaseNat)
          (c.map TagDetector.localeCaseNat) ≠ .gt := h2
      exact cmpNatList_not_gt_trans h1c h2c
  | lt =>
    rw [hab] at h1
    cases hbc : TagDetector.cmpNatList (b.map TagDetector.localeLowerNat)
        (c.map TagDetector.localeLowerNat) with
    | gt => rw [hbc] at h2; exact absurd rfl h2
    | lt =>
      rw [cmpNatList_lt_trans hab hbc]
      intro h; cases h
    | eq =>
      have hlow := cmpNatList_eq_iff.mp hbc
      rw [← hlow, hab]
      intro h; cases h

theorem cmpNatList_swap : ∀ (a b : List Nat),
    TagDetector.cmpNatList b a = (TagDetector.cmpNatList a b).swap := by
  intro a
  induction a with
  | nil =>
    intro b
    cases b with
    | nil => rfl
    | cons y ys => rfl
  | cons x xs ih =>
    intro b
    cases b with
    | nil => rfl
    | cons y ys =>
      rw [TagDetector.cmpNatList, TagDetector.cmpNatList]
      by_cases hxy : x < y
      · rw [if_pos hxy, if_neg (by omega), if_pos hxy]
        rfl
      · rw [if_neg hxy]
        by_cases hyx : y < x
        · rw [if_pos hyx, if_neg hxy, if_pos hyx]
          rfl
        · rw [if_neg hyx, if_neg hxy, if_neg hyx]
          exact ih ys

theorem localeCompare_swap (a b : Str) :
    TagDetector.localeCompare b a = (TagDetector.localeCompare a b).swap := by
  simp only [TagDetector.localeCompare]
  rw [cmpNatList_swap (a.map TagDetector.localeLowerNat) (b.map TagDetector.localeLowerNat)]
  cases TagDetector.cmpNatList (a.map TagDetector.localeLowerNat)
      (b.map TagDetector.localeLowerNat) with
  | lt => rfl
  | gt => rfl
  | eq => exact cmpNatList_swap _ _

theorem tagLe_of_not_lt {x y : DocxTag}
    (h : ¬ TagDetector.localeCompare y.name x.name = .lt) : tagLe x y := by
  rw [tagLe, localeCompare_swap y.name x.name]
  cases hyx : TagDetector.localeCompare y.name x.name with
  | lt => exact absurd hyx h
  | eq => intro hc; cases hc
  | gt => intro hc; cases hc


/-! ## The insertion sort used by findTags -/

theorem insertTag_cons (x y : DocxTag) (rest : List DocxTag) :
    TagDetector.insertTag x (y :: rest) =
      if TagDetector.localeCompare y.name x.name = .lt then y :: TagDetector.insertTag x rest
      else x :: y :: rest := rfl

theorem insertTag_perm (x : DocxTag) : ∀ (l : List DocxTag),
    (TagDetector.insertTag x l).Perm (x :: l) := by
  intro l
  induction l with
  | nil => exact List.Perm.refl _
  | cons y rest ih =>
    rw [insertTag_cons]
    by_cases h : TagDetector.localeCompare y.name x.name = .lt
    · rw [if_pos h]
      exact (ih.cons y).trans (List.Perm.swap x y rest)
    · rw [if_neg h]

theorem sortTags_perm : ∀ (l : List DocxTag), (TagDetector.sortTags l).Perm l := by
  intro l
  induction l with
  | nil => exact List.Perm.refl _
  | cons x rest ih =>
    rw [TagDetector.sortTags]
    exact (insertTag_perm x (TagDetector.sortTags rest)).trans (ih.cons x)

theorem mem_insertTag {x a : DocxTag} {l : List DocxTag}
    (h : a ∈ TagDetector.insertTag x l) : a = x ∨ a ∈ l := by
  have := (insertTag_perm x l).mem_iff.mp h
  simpa using this

theorem insertTag_sorted (x : DocxTag) : ∀ {l : List DocxTag},
    l.Pairwise tagLe → (TagDetector.insertTag x l).Pairwise tagLe := by
  intro l
  induction l with
  | nil =>
    intro _
    exact List.pairwise_singleton tagLe x
  | cons y rest ih =>
    intro hp
    obtain ⟨hy, hrest⟩ := List.pairwise_cons.mp hp
    rw [insertTag_cons]
    by_cases h : TagDetector.localeCompare y.name x.name = .lt
    · rw [if_pos h]
      refine List.pairwise_cons.mpr ⟨?_, ih hrest⟩
      intro a ha
      rcases mem_insertTag ha with rfl | ha'
      · rw [tagLe, h]
        intro hc; cases hc
      · exact hy a ha'
    · rw [if_neg h]
      have hxy : tagLe x y := tagLe_of_not_lt h
      refine List.pairwise_cons.mpr ⟨?_, hp⟩
      intro a ha
      rcases List.mem_cons.mp ha with rfl | ha'
      · exact hxy
      · exact localeCompare_not_gt_trans hxy (hy a ha')

theorem sortTags_sorted : ∀ (l : List DocxTag), (TagDetector.sortTags l).Pairwise tagLe := by
  intro l
  induction l with
  | nil => exact List.Pairwise.nil
  | cons x rest ih =>
    rw [TagDetector.sortTags]
    exact insertTag_sorted x ih


/-! ## Idempotence of the JavaScript trim -/

theorem dropWhile_head_false {p : Char → Bool} :
    ∀ {l : List Char} {c : Char}, (l.dropWhile p).head? = some c → p c = false := by
  intro l
  induction l with
  | nil => intro c h; cases h
  | cons x xs ih =>
    intro c h
    rw [List.dropWhile_cons] at h
    by_cases hx : p x = true
    · rw [if_pos hx] at h
      exact ih h
    · rw [if_neg hx] at h
      injection h with h
      subst h
      exact Bool.not_eq_true _ ▸ hx

theorem dropWhile_eq_self_of_head {p : Char → Bool} {l : List Char}
    (h : ∀ c, l.head? = some c → p c = false) : l.dropWhile p = l := by
  cases l with
  | nil => rfl
  | cons x xs =>
    rw [List.dropWhile_cons, if_neg]
    rw [h x rfl]
    intro hc
    cases hc

theorem getLast?_some_of_ne_nil : ∀ {l : List Char}, l ≠ [] → ∃ c, l.getLast? = some c := by
  intro l h
  cases l with
  | nil => exact absurd rfl h
  | cons x xs => exact ⟨_, rfl⟩

theorem jsTrim_head (s : Str) : ∀ c, (jsTrim s).head? = some c → jsIsWs c = false := by
  intro c h
  rw [jsTrim] at h
  rw [List.head?_reverse] at h
  set B := ((s.dropWhile jsIsWs).reverse.dropWhile jsIsWs) with hB
  have hBne : B ≠ [] := by
    intro hnil
    rw [hnil] at h
    cases h
  have hsplit := List.takeWhile_append_dropWhile jsIsWs (s.dropWhile jsIsWs).reverse
  rw [← hB] at hsplit
  obtain ⟨b, hb⟩ := getLast?_some_of_ne_nil hBne
  have hgl : ((s.dropWhile jsIsWs).reverse).getLast? = B.getLast? := by
    rw [← hsplit, List.getLast?_append, hb]
    rfl
  rw [List.getLast?_reverse] at hgl
  rw [← hgl] at h
  exact dropWhile_head_false h

theorem jsTrim_getLast (s : Str) : ∀ c, (jsTrim s).getLast? = some c → jsIsWs c = false := by
  intro c h
  rw [jsTrim, List.getLast?_reverse] at h
  exact dropWhile_head_false h

theorem jsTrim_idem (s : Str) : jsTrim (jsTrim s) = jsTrim s := by
  rw [jsTrim]
  rw [dropWhile_eq_self_of_head (jsTrim_head s)]
  rw [dropWhile_eq_self_of_head (fun c h => jsTrim_getLast s c (List.head?_reverse _ ▸ h))]
  exact List.reverse_reverse _


/-! ## The deduplicating addTag fold -/

theorem addTag_eq (raw nm : Str) (st : List DocxTag × List Str) :
    TagDetector.addTag raw nm st =
      if jsTrim nm ≠ [] ∧ ¬ st.2.contains (jsTrim nm) then
        (st.1 ++ [⟨jsTrim nm, raw, jsTrim nm⟩], st.2 ++ [jsTrim nm]) else st := rfl

theorem find?_append_some {p : Str × Str → Bool} :
    ∀ {l₁ : List (Str × Str)} {x : Str × Str}, l₁.find? p = some x →
      ∀ l₂, (l₁ ++ l₂).find? p = some x := by
  intro l₁
  induction l₁ with
  | nil => intro x h; cases h
  | cons a as ih =>
    intro x h l₂
    by_cases ha : p a = true
    · rw [List.find?_cons_of_pos _ ha] at h
      rw [List.cons_append, List.find?_cons_of_pos _ ha]
      exact h
    · rw [List.find?_cons_of_neg _ (by simpa using ha)] at h
      rw [List.cons_append, List.find?_cons_of_neg _ (by simpa using ha)]
      exact ih h l₂

theorem find?_append_of_none {p : Str × Str → Bool} :
    ∀ {l₁ : List (Str × Str)}, l₁.find? p = none →
      ∀ l₂, (l₁ ++ l₂).find? p = l₂.find? p := by
  intro l₁
  induction l₁ with
  | nil => intro _ l₂; rfl
  | cons a as ih =>
    intro h l₂
    by_cases ha : p a = true
    · rw [List.find?_cons_of_pos _ ha] at h
      cases h
    · rw [List.find?_cons_of_neg _ (by simpa using ha)] at h
      rw [List.cons_append, List.find?_cons_of_neg _ (by simpa using ha)]
      exact ih h l₂

theorem contains_iff_mem {l : List Str} {a : Str} : l.contains a = true ↔ a ∈ l := by
  simp

theorem addTag_fold_spec : ∀ (ps : List (Str × Str)),
    AddTagFoldInv ps (ps.foldl (fun st p => TagDetector.addTag p.1 p.2 st) ([], [])) := by
  intro ps
  induction ps using List.reverseRecOn with
  | nil =>
    unfold AddTagFoldInv
    refine ⟨rfl, List.nodup_nil, ?_, ?_, ?_⟩
    · intro tag h; cases h
    · intro tag h; cases h
    · intro nm
      constructor
      · intro h; cases h
      · rintro ⟨-, p, hp, -⟩; cases hp
  | append_singleton ps q ih =>
    unfold AddTagFoldInv at ih
    obtain ⟨ih1, ih2, ih3, ih4, ih5⟩ := ih
    have hfold : (ps ++ [q]).foldl (fun st p => TagDetector.addTag p.1 p.2 st) ([], []) =
        TagDetector.addTag q.1 q.2
          (ps.foldl (fun st p => TagDetector.addTag p.1 p.2 st) ([], [])) := by
      rw [List.foldl_append]
      rfl
    unfold AddTagFoldInv
    rw [hfold, addTag_eq]
    by_cases hc : jsTrim q.2 ≠ [] ∧
        ¬ (ps.foldl (fun st p => TagDetector.addTag p.1 p.2 st) ([], [])).2.contains
          (jsTrim q.2)
    · rw [if_pos hc]
      obtain ⟨hne, hnotin⟩ := hc
      have hnm : jsTrim q.2 ∉
          ((ps.foldl (fun st p => TagDetector.addTag p.1 p.2 st) ([], [])).1.map
            DocxTag.name) := by
        intro hmem
        apply hnotin
        rw [ih1]
        exact contains_iff_mem.mpr hmem
      have hnone : ps.find? (fun r => jsTrim r.2 == jsTrim q.2) = none := by
        rw [List.find?_eq_none]
        intro x hx
        simp only [beq_iff_eq]
        intro hxq
        have hin : jsTrim q.2 ∈
            (ps.foldl (fun st p => TagDetector.addTag p.1 p.2 st) ([], [])).2 :=
          (ih5 (jsTrim q.2)).mpr ⟨hne, x, hx, hxq⟩
        rw [ih1] at hin
        exact hnm hin
      dsimp only
      refine ⟨?_, ?_, ?_, ?_, ?_⟩
      · simp only [List.map_append, List.map_cons, List.map_nil, ih1]
      · rw [List.map_append, List.nodup_append]
        refine ⟨ih2, List.nodup_singleton _, ?_⟩
        intro a ha hb
        rw [List.map_cons, List.map_nil, List.mem_singleton] at hb
        subst hb
        exact hnm ha
      · intro tag htag
        rcases List.mem_append.mp htag with h | h
        · exact ih3 tag h
        · rw [List.mem_singleton] at h
          subst h
          exact ⟨rfl, jsTrim_idem q.2, hne⟩
      · intro tag htag
        rcases List.mem_append.mp htag with h | h
        · obtain ⟨p, hp, hraw, hname⟩ := ih4 tag h
          exact ⟨p, find?_append_some hp [q], hraw, hname⟩
        · rw [List.mem_singleton] at h
          subst h
          refine ⟨q, ?_, rfl, rfl⟩
          rw [find?_append_of_none hnone [q]]
          exact List.find?_cons_of_pos _ (by simp)
      · intro nm
        rw [List.mem_append, List.mem_singleton, ih5]
        constructor
        · rintro (⟨h1, p, hp, h2⟩ | rfl)
          · exact ⟨h1, p, List.mem_append_left _ hp, h2⟩
          · exact ⟨hne, q, List.mem_append_right _ (List.mem_singleton.mpr rfl), rfl⟩
        · rintro ⟨h1, r, hr, h2⟩
          rcases List.mem_append.mp hr with h | h
          · exact Or.inl ⟨h1, r, h, h2⟩
          · rw [List.mem_singleton] at h
            subst h
            exact Or.inr h2.symm
    · rw [if_neg hc]
      push_neg at hc
      refine ⟨ih1, ih2, ih3, ?_, ?_⟩
      · intro tag htag
        obtain ⟨p, hp, hraw, hname⟩ := ih4 tag htag
        exact ⟨p, find?_append_some hp [q], hraw, hname⟩
      · intro nm
        rw [ih5]
        constructor
        · rintro ⟨h1, p, hp, h2⟩
          exact ⟨h1, p, List.mem_append_left _ hp, h2⟩
        · rintro ⟨h1, r, hr, h2⟩
          rcases List.mem_append.mp hr with h | h
          · exact ⟨h1, r, h, h2⟩
          · rw [List.mem_singleton] at h
            subst h
            have hq2 : jsTrim r.2 ≠ [] := by
              rw [h2]
              exact h1
            have hcont := hc hq2
            have hmem : jsTrim r.2 ∈
                (ps.foldl (fun st p => TagDetector.addTag p.1 p.2 st) ([], [])).2 :=
              contains_iff_mem.mp hcont
            obtain ⟨-, p', hp', h2'⟩ := (ih5 (jsTrim r.2)).mp hmem
            exact ⟨h1, p', hp', h2'.trans h2⟩


/-! ## findTags as a sorted deduplicating fold -/

theorem singleFold_eq : ∀ (l : List (Str × Str)) (st : List DocxTag × List Str),
    l.foldl (fun st p =>
      if (jsTrim p.2).length < 50 ∧ ¬ (jsTrim p.2).contains '\n' then
        TagDetector.addTag p.1 (jsTrim p.2) st
      else st) st =
    ((l.map (fun p => (p.1, jsTrim p.2))).filter
      (fun p => decide (p.2.length < 50) && !p.2.contains '\n')).foldl
      (fun st p => TagDetector.addTag p.1 p.2 st) st := by
  intro l
  induction l with
  | nil => intro st; rfl
  | cons a as ih =>
    intro st
    by_cases h : (jsTrim a.2).length < 50 ∧ ¬ (jsTrim a.2).contains '\n'
    · have hb : (decide ((jsTrim a.2).length < 50) && !(jsTrim a.2).contains '\n') = true := by
        obtain ⟨ha, hbn⟩ := h
        cases hcn : (jsTrim a.2).contains '\n' with
        | true => exact absurd hcn hbn
        | false => simp [ha, hcn]
      simp only [List.foldl_cons, List.map_cons, List.filter_cons, if_pos h, hb, if_true]
      exact ih _
    · have hb : (decide ((jsTrim a.2).length < 50) && !(jsTrim a.2).contains '\n') = false := by
        by_cases ha : (jsTrim a.2).length < 50
        · have hbt := not_not.mp (not_and.mp h ha)
          have hmem : '\n' ∈ jsTrim a.2 := by simpa using hbt
          simp [ha, hmem]
        · simp [ha]
      simp only [List.foldl_cons, List.map_cons, List.filter_cons, if_neg h, hb,
        Bool.false_eq_true, if_false]
      exact ih st

theorem findTags_eq_fold (t : Str) :
    TagDetector.findTags t =
      TagDetector.sortTags
        (((TagDetector.effectivePairs t).foldl
          (fun st p => TagDetector.addTag p.1 p.2 st) ([], [])).1) := by
  simp only [TagDetector.findTags, TagDetector.effectivePairs]
  by_cases h : ((runScan TagDetector.doubleBraceMatcher t).1.map
      (fun s => (s.2.1, s.2.2))).isEmpty
  · have hnil : (runScan TagDetector.doubleBraceMatcher t).1.map
        (fun s => (s.2.1, s.2.2)) = [] := by
      simpa [List.isEmpty_iff] using h
    rw [hnil]
    simp only [List.isEmpty_nil, if_true, List.foldl_nil]
    rw [singleFold_eq]
  · rw [if_neg h, if_neg h]


/-- Claim C7 counterexample: on the text `\x7b\x7bB\x7d\x7d\x7b\x7ba\x7d\x7d` the
extractor returns the names in the order `a`, `B` — the `localeCompare`
comparator places lowercase `a` before uppercase `B` — while case-sensitive
lexical order (code-unit order, where every uppercase letter precedes every
lowercase letter) would demand `B` before `a`: the output is not sorted in
case-sensitive lexical order. -/
theorem findTags_not_lex_sorted_counterexample :
    (TagDetector.findTags "\x7b\x7bB\x7d\x7d\x7b\x7ba\x7d\x7d".toList).map DocxTag.name =
      [['a'], ['B']] ∧ ¬ lexLe ['a'] ['B'] := by
  refine ⟨by decide, ?_⟩
  intro h
  exact h (by decide)

/-- C7 (amended): for every input text, `findTags` yields at most one entry
per trimmed inner name (the name list is duplicate-free); each entry's id
equals its name, which is trimmed and non-empty; each entry retains the raw
form of the first scanned placeholder whose trimmed inner name matches (so two
placeholders differing only by surrounding whitespace inside the markers yield
one entry); and the result is sorted by name in the modelled `localeCompare`
order (ECMA-402 default collation: case-insensitive primary weight, lowercase
before uppercase on ties) — not in case-sensitive lexical order. -/
theorem findTags_spec (t : Str) :
    ((TagDetector.findTags t).map DocxTag.name).Nodup ∧
    (TagDetector.findTags t).Pairwise tagLe ∧
    (∀ tag ∈ TagDetector.findTags t,
      tag.id = tag.name ∧ jsTrim tag.name = tag.name ∧ tag.name ≠ []) ∧
    (∀ tag ∈ TagDetector.findTags t, ∃ p,
      (TagDetector.effectivePairs t).find? (fun q => jsTrim q.2 == tag.name) = some p ∧
      tag.raw = p.1 ∧ tag.name = jsTrim p.2) := by
  have hinv := addTag_fold_spec (TagDetector.effectivePairs t)
  unfold AddTagFoldInv at hinv
  obtain ⟨-, h2, h3, h4, -⟩ := hinv
  have hperm := sortTags_perm (((TagDetector.effectivePairs t).foldl
      (fun st p => TagDetector.addTag p.1 p.2 st) ([], [])).1)
  rw [findTags_eq_fold]
  refine ⟨?_, sortTags_sorted _, ?_, ?_⟩
  · exact ((hperm.map DocxTag.name).nodup_iff).mpr h2
  · intro tag htag
    exact h3 tag (hperm.mem_iff.mp htag)
  · intro tag htag
    exact h4 tag (hperm.mem_iff.mp htag)


/-! ## One-match step equations for the global replace -/

theorem rebuild_nil (f : Str → α → Nat → Str) (i : Nat) (tl : Str) :
    rebuild f [] i tl = tl := rfl

theorem rebuild_cons (f : Str → α → Nat → Str) (g m : Str) (a : α)
    (segs : List (Str × Str × α)) (i : Nat) (tl : Str) :
    rebuild f ((g, m, a) :: segs) i tl = g ++ f m a i ++ rebuild f segs (i + 1) tl := rfl

theorem rebuild_const {f : Str → α → Nat → Str} (hfi : ∀ m a i j, f m a i = f m a j) :
    ∀ (segs : List (Str × Str × α)) (i j : Nat) (tl : Str),
      rebuild f segs i tl = rebuild f segs j tl := by
  intro segs
  induction segs with
  | nil => intro i j tl; rfl
  | cons s rest ih =>
    intro i j tl
    obtain ⟨g, m, a⟩ := s
    rw [rebuild_cons, rebuild_cons, hfi m a i j, ih (i + 1) (j + 1) tl]

theorem scanM_fuel_eq {M : Str → Option (Nat × α)}
    (hM : ∀ t n a, M t = some (n, a) → n ≤ t.length) :
    ∀ (N : Nat) (t : Str), t.length ≤ N → ∀ fuel fuel', t.length < fuel → t.length < fuel' →
      scanM M fuel t = scanM M fuel' t := by
  intro N
  induction N with
  | zero =>
    intro t ht fuel fuel' h1 h2
    have ht0 : t = [] := List.length_eq_zero.mp (Nat.le_zero.mp ht)
    subst ht0
    cases fuel with
    | zero => exact absurd h1 (by omega)
    | succ f =>
      cases fuel' with
      | zero => exact absurd h2 (by omega)
      | succ f' =>
        cases hf : findFirstM M ([] : Str) with
        | none => rw [scanM_succ_none f hf, scanM_succ_none f' hf]
        | some p =>
          obtain ⟨g, n, a⟩ := p
          obtain ⟨h1M, hgle, -⟩ := findFirstM_some hf
          have hn0 : n = 0 := by
            have := hM _ _ _ h1M
            simpa using this
          subst hn0
          rw [scanM_succ_some f hf, scanM_succ_some f' hf]
          simp [List.drop_nil, List.take_nil]
  | succ N ih =>
    intro t ht fuel fuel' h1 h2
    cases fuel with
    | zero => exact absurd h1 (by omega)
    | succ f =>
      cases fuel' with
      | zero => exact absurd h2 (by omega)
      | succ f' =>
        cases hf : findFirstM M t with
        | none => rw [scanM_succ_none f hf, scanM_succ_none f' hf]
        | some p =>
          obtain ⟨g, n, a⟩ := p
          obtain ⟨h1M, hgle, -⟩ := findFirstM_some hf
          have hnle : g + n ≤ t.length := by
            have := hM _ _ _ h1M
            rw [List.length_drop] at this
            omega
          rw [scanM_succ_some f hf, scanM_succ_some f' hf]
          by_cases hn : n = 0
          · subst hn
            rw [if_pos rfl, if_pos rfl]
            cases hr : t.drop (g + 0) with
            | nil => rfl
            | cons c rest₂ =>
              have hlen : rest₂.length + 1 = t.length - g := by
                have := congrArg List.length hr
                rw [List.length_drop, List.length_cons] at this
                omega
              have heq : scanM M f rest₂ = scanM M f' rest₂ :=
                ih rest₂ (by omega) f f' (by omega) (by omega)
              dsimp only
              rw [heq]
          · rw [if_neg hn, if_neg hn]
            have hlen : (t.drop (g + n)).length = t.length - (g + n) := List.length_drop _ _
            have heq : scanM M f (t.drop (g + n)) = scanM M f' (t.drop (g + n)) :=
              ih (t.drop (g + n)) (by omega) f f' (by omega) (by omega)
            rw [heq]

theorem jsReplace_of_none {M : Str → Option (Nat × α)} {f : Str → α → Nat → Str} {t : Str}
    (hf : findFirstM M t = none) : jsReplace M f t = t := by
  unfold jsReplace runScan
  rw [scanM_succ_none _ hf]
  rfl

theorem jsReplace_of_some {M : Str → Option (Nat × α)} {f : Str → α → Nat → Str} {t : Str}
    {g n : Nat} {a : α}
    (hM : ∀ t n a, M t = some (n, a) → n ≤ t.length)
    (hfi : ∀ m a i j, f m a i = f m a j)
    (hn : n ≠ 0)
    (hf : findFirstM M t = some (g, n, a)) :
    jsReplace M f t = t.take g ++ f ((t.drop g).take n) a 0 ++ jsReplace M f (t.drop (g + n)) := by
  obtain ⟨h1M, hgle, -⟩ := findFirstM_some hf
  have hnle : g + n ≤ t.length := by
    have := hM _ _ _ h1M
    rw [List.length_drop] at this
    omega
  unfold jsReplace runScan
  rw [scanM_succ_some t.length hf, if_neg hn]
  dsimp only
  rw [rebuild_cons]
  have hlen : (t.drop (g + n)).length = t.length - (g + n) := List.length_drop _ _
  have hsc : scanM M t.length (t.drop (g + n)) =
      scanM M ((t.drop (g + n)).length + 1) (t.drop (g + n)) :=
    scanM_fuel_eq hM (t.drop (g + n)).length _ le_rfl _ _ (by omega) (by omega)
  rw [hsc, rebuild_const hfi _ 1 0]


/-! ## Occurrence and matcher characterizations for the consolidation pass -/

theorem splitOnFirst_none {pat : Str} :
    ∀ {s : Str}, splitOnFirst pat s = none → ∀ u w, s ≠ u ++ pat ++ w := by
  intro s
  induction s with
  | nil =>
    intro h u w hc
    rw [splitOnFirst] at h
    by_cases hp : pat.isPrefixOf ([] : Str) = true
    · rw [if_pos hp] at h; cases h
    · rw [List.isPrefixOf_iff_prefix] at hp
      cases u with
      | nil =>
        refine hp ?_
        rw [List.nil_append] at hc
        exact ⟨w, hc.symm⟩
      | cons x xs => cases hc
  | cons c rest ih =>
    intro h u w hc
    rw [splitOnFirst] at h
    by_cases hp : pat.isPrefixOf (c :: rest) = true
    · rw [if_pos hp] at h; cases h
    · rw [if_neg hp] at h
      cases hrec : splitOnFirst pat rest with
      | some p => rw [hrec] at h; obtain ⟨b, a⟩ := p; cases h
      | none =>
        cases u with
        | nil =>
          rw [List.nil_append] at hc
          refine hp ?_
          rw [List.isPrefixOf_iff_prefix]
          exact ⟨w, hc.symm⟩
        | cons x xs =>
          rw [List.cons_append, List.cons_append] at hc
          injection hc with h1 h2
          exact ih hrec xs w h2

theorem consolidateMatcher_cons (rest : Str) :
    TagNormalizer.consolidateMatcher ('\x7b' :: '\x7b' :: rest) =
      match splitOnFirst ['\x7d', '\x7d'] rest with
      | some (content, _) => some (2 + content.length + 2, content)
      | none => none := rfl

theorem consolidateMatcher_some {t : Str} {n : Nat} {content : Str}
    (h : TagNormalizer.consolidateMatcher t = some (n, content)) :
    ∃ rest after, t = '\x7b' :: '\x7b' :: rest ∧
      splitOnFirst ['\x7d', '\x7d'] rest = some (content, after) ∧
      n = 2 + content.length + 2 := by
  unfold TagNormalizer.consolidateMatcher at h
  split at h
  · rename_i rest
    cases hsp : splitOnFirst ['\x7d', '\x7d'] rest with
    | none => rw [hsp] at h; cases h
    | some p =>
      obtain ⟨c₀, a₀⟩ := p
      rw [hsp] at h
      simp only [Option.some.injEq, Prod.mk.injEq] at h
      obtain ⟨rfl, rfl⟩ := h
      exact ⟨rest, a₀, rfl, hsp, rfl⟩
  · cases h

theorem consolidateMatcher_of_occ {T u w : Str}
    (hocc : T = u ++ '\x7d' :: '\x7d' :: w) :
    ∃ n c, TagNormalizer.consolidateMatcher ('\x7b' :: '\x7b' :: T) = some (n, c) := by
  rw [consolidateMatcher_cons]
  cases hsp : splitOnFirst ['\x7d', '\x7d'] T with
  | none =>
    exact absurd hocc (by
      have := splitOnFirst_none hsp u w
      simpa using this)
  | some p =>
    obtain ⟨c₀, a₀⟩ := p
    exact ⟨_, _, rfl⟩

theorem xmlTagMatcher_cons (rest : Str) :
    TagNormalizer.xmlTagMatcher ('<' :: rest) =
      (if rest.takeWhile (· != '>') = [] then none
       else if (rest.drop (rest.takeWhile (· != '>')).length).head? = some '>' then
         some ((rest.takeWhile (· != '>')).length + 2, ())
       else none) := rfl

theorem xmlTagMatcher_some {t : Str} {n : Nat} {u : Unit}
    (h : TagNormalizer.xmlTagMatcher t = some (n, u)) :
    ∃ run after, t = '<' :: run ++ '>' :: after ∧ run ≠ [] ∧ (∀ c ∈ run, c ≠ '>') ∧
      n = run.length + 2 := by
  unfold TagNormalizer.xmlTagMatcher at h
  split at h
  · rename_i rest
    set run := rest.takeWhile (· != '>') with hrundef
    by_cases hrun : run = []
    · rw [if_pos hrun] at h
      cases h
    · rw [if_neg hrun] at h
      by_cases hhd : (rest.drop run.length).head? = some '>'
      · rw [if_pos hhd] at h
        simp only [Option.some.injEq, Prod.mk.injEq] at h
        obtain ⟨rfl, -⟩ := h
        have hsplit : run ++ rest.dropWhile (· != '>') = rest := by
          rw [hrundef]
          exact List.takeWhile_append_dropWhile _ _
        have hdrop : rest.drop run.length = rest.dropWhile (· != '>') := by
          conv_lhs => rw [← hsplit]
          exact List.drop_left _ _
        rw [hdrop] at hhd
        cases hdw : rest.dropWhile (· != '>') with
        | nil => rw [hdw] at hhd; cases hhd
        | cons d tail =>
          rw [hdw] at hhd
          have hd : d = '>' := by
            simpa using hhd
          subst hd
          refine ⟨run, tail, ?_, hrun, ?_, rfl⟩
          · rw [← hsplit, hdw, List.cons_append]
          · intro c hc
            have := List.mem_takeWhile_imp (hrundef ▸ hc)
            simpa using this
      · rw [if_neg hhd] at h
        cases h
  · cases h


theorem drop_takeWhile_length (p : Char → Bool) :
    ∀ l : List Char, l.drop (l.takeWhile p).length = l.dropWhile p := by
  intro l
  induction l with
  | nil => rfl
  | cons x xs ih =>
    rw [List.takeWhile_cons, List.dropWhile_cons]
    by_cases hx : p x = true
    · rw [if_pos hx, if_pos hx, List.length_cons, List.drop_succ_cons]
      exact ih
    · rw [if_neg hx, if_neg hx, List.length_nil, List.drop_zero]

theorem xmlTagMatcher_of_gt {rest : Str} (hne : rest ≠ []) (hh : rest.head? ≠ some '>')
    (hgt : '>' ∈ rest) : ∃ n u, TagNormalizer.xmlTagMatcher ('<' :: rest) = some (n, u) := by
  rw [xmlTagMatcher_cons]
  have hrun : rest.takeWhile (· != '>') ≠ [] := by
    cases rest with
    | nil => exact absurd rfl hne
    | cons c tail =>
      rw [List.takeWhile_cons]
      have hc : c ≠ '>' := by
        intro hc
        subst hc
        exact hh rfl
      rw [if_pos (by simpa using hc)]
      intro hcon
      cases hcon
  rw [if_neg hrun]
  have hsplit : rest.takeWhile (· != '>') ++ rest.dropWhile (· != '>') = rest :=
    List.takeWhile_append_dropWhile _ _
  rw [drop_takeWhile_length]
  cases hdw : rest.dropWhile (· != '>') with
  | nil =>
    exfalso
    have : '>' ∈ rest.takeWhile (· != '>') := by
      rw [← hsplit, hdw, List.append_nil] at hgt
      exact hgt
    have := List.mem_takeWhile_imp this
    simp at this
  | cons d tail =>
    have hd : d = '>' := by
      have hdp := List.head?_dropWhile_not (· != '>') rest
      rw [hdw] at hdp
      simp only [List.head?_cons] at hdp
      simpa using hdp
    subst hd
    rw [if_pos (by rw [List.head?_cons])]
    exact ⟨_, _, rfl⟩

/-! ## Filter decompositions: brace stripping cannot create markup -/

theorem filter_split {p : Char → Bool} :
    ∀ {l u w : List Char}, l.filter p = u ++ w →
      ∃ l₁ l₂, l = l₁ ++ l₂ ∧ l₁.filter p = u ∧ l₂.filter p = w := by
  intro l
  induction l with
  | nil =>
    intro u w h
    rw [List.filter_nil] at h
    obtain ⟨h1, h2⟩ := List.append_eq_nil.mp h.symm
    exact ⟨[], [], rfl, by rw [h1]; rfl, by rw [h2]; rfl⟩
  | cons x xs ih =>
    intro u w h
    by_cases hx : p x = true
    · rw [List.filter_cons_of_pos hx] at h
      cases u with
      | nil =>
        rw [List.nil_append] at h
        exact ⟨[], x :: xs, rfl, rfl, by rw [List.filter_cons_of_pos hx, h]⟩
      | cons u₀ u' =>
        rw [List.cons_append] at h
        injection h with h1 h2
        obtain ⟨l₁, l₂, hl, hf1, hf2⟩ := ih h2
        subst h1
        exact ⟨x :: l₁, l₂, by rw [hl, List.cons_append],
          by rw [List.filter_cons_of_pos hx, hf1], hf2⟩
    · rw [List.filter_cons_of_neg (by simpa using hx)] at h
      obtain ⟨l₁, l₂, hl, hf1, hf2⟩ := ih h
      exact ⟨x :: l₁, l₂, by rw [hl, List.cons_append],
        by rw [List.filter_cons_of_neg (by simpa using hx), hf1], hf2⟩

theorem filter_cons_split {p : Char → Bool} :
    ∀ {l : List Char} {c : Char} {w : List Char}, l.filter p = c :: w →
      ∃ l₁ l₂, l = l₁ ++ c :: l₂ ∧ (∀ x ∈ l₁, p x = false) ∧ l₂.filter p = w := by
  intro l
  induction l with
  | nil =>
    intro c w h
    rw [List.filter_nil] at h
    cases h
  | cons x xs ih =>
    intro c w h
    by_cases hx : p x = true
    · rw [List.filter_cons_of_pos hx] at h
      injection h with h1 h2
      subst h1
      exact ⟨[], xs, rfl, fun y hy => absurd hy (by simp), h2⟩
    · rw [List.filter_cons_of_neg (by simpa using hx)] at h
      obtain ⟨l₁, l₂, hl, hp1, hf2⟩ := ih h
      refine ⟨x :: l₁, l₂, by rw [hl, List.cons_append], ?_, hf2⟩
      intro y hy
      rcases List.mem_cons.mp hy with rfl | hy'
      · exact Bool.not_eq_true _ ▸ hx
      · exact hp1 y hy'

theorem containsXmlTag_filter {p : Char → Bool} (hgt : p '>' = true) {s : Str}
    (h : ContainsXmlTag (s.filter p)) : ContainsXmlTag s := by
  obtain ⟨a, inner, b, heq, hne, hfree⟩ := h
  obtain ⟨s₁, s₂, hs, hf1, hf2⟩ := filter_split heq
  obtain ⟨u, s₃, hs₂, hpu, hf3⟩ := filter_cons_split hf2
  obtain ⟨m₀, s₄, hs₃, hfm, hf4⟩ := filter_split hf3
  obtain ⟨w, s₅, hs₄, hpw, hf5⟩ := filter_cons_split hf4
  refine ⟨s₁ ++ u, m₀ ++ w, s₅, ?_, ?_, ?_⟩
  · rw [hs, hs₂, hs₃, hs₄]
    simp [List.append_assoc]
  · intro hcon
    obtain ⟨hm₀, -⟩ := List.append_eq_nil.mp hcon
    rw [hm₀] at hfm
    rw [List.filter_nil] at hfm
    exact hne hfm.symm
  · intro c hc
    rcases List.mem_append.mp hc with hcm | hcw
    · by_cases hpc : p c = true
      · have : c ∈ List.filter p m₀ := List.mem_filter.mpr ⟨hcm, hpc⟩
        rw [hfm] at this
        exact hfree c this
      · intro hcon
        subst hcon
        exact hpc hgt
    · intro hcon
      subst hcon
      rw [hpw _ hcw] at hgt
      cases hgt

theorem stripBraces_braceFree (s : Str) :
    ∀ c ∈ TagNormalizer.stripBraces s, c ≠ '\x7b' ∧ c ≠ '\x7d' := by
  intro c hc
  unfold TagNormalizer.stripBraces at hc
  obtain ⟨hc1, hc2⟩ := List.mem_filter.mp hc
  obtain ⟨-, hc3⟩ := List.mem_filter.mp hc1
  constructor
  · simpa using hc3
  · simpa using hc2

theorem stripBraces_tagFree {s : Str} (h : ¬ ContainsXmlTag s) :
    ¬ ContainsXmlTag (TagNormalizer.stripBraces s) := by
  intro hcon
  apply h
  unfold TagNormalizer.stripBraces at hcon
  exact containsXmlTag_filter (by decide) (containsXmlTag_filter (by decide) hcon)


/-! ## Tag stripping leaves no complete markup behind -/

theorem xmlTagMatcher_le : ∀ (t : Str) (n : Nat) (u : Unit),
    TagNormalizer.xmlTagMatcher t = some (n, u) → n ≤ t.length := by
  intro t n u h
  obtain ⟨run, after, ht, -, -, hn⟩ := xmlTagMatcher_some h
  rw [ht]
  simp only [List.cons_append, List.length_cons, List.length_append]
  omega

theorem stripXmlTags_tagFree : ∀ (x : Str), ¬ ContainsXmlTag (TagNormalizer.stripXmlTags x) := by
  have H : ∀ N, ∀ x : Str, x.length ≤ N → ¬ ContainsXmlTag (TagNormalizer.stripXmlTags x) := by
    intro N
    induction N using Nat.strong_induction_on with
    | h N ih =>
      intro x hxN hcon
      cases hf : findFirstM TagNormalizer.xmlTagMatcher x with
      | none =>
        rw [TagNormalizer.stripXmlTags, jsReplace_of_none hf] at hcon
        obtain ⟨a, inner, b, heq, hne, hfree⟩ := hcon
        have hnone := findFirstM_none hf a.length
        rw [heq, List.drop_left] at hnone
        obtain ⟨n, u, hsome⟩ := @xmlTagMatcher_of_gt (inner ++ '>' :: b)
          (by simp)
          (by
            cases inner with
            | nil => exact absurd rfl hne
            | cons i₀ inn =>
              rw [List.cons_append, List.head?_cons]
              intro hcc
              exact hfree i₀ (List.mem_cons_self _ _) (by injection hcc))
          (List.mem_append_right _ (List.mem_cons_self _ _))
        rw [hnone] at hsome
        cases hsome
      | some p =>
        obtain ⟨g, n, pay⟩ := p
        obtain ⟨h1M, hgle, hgap⟩ := findFirstM_some hf
        obtain ⟨run, after, hdropg, hrunne, hrunfree, hn⟩ := xmlTagMatcher_some h1M
        have hn0 : n ≠ 0 := by omega
        have hy : TagNormalizer.stripXmlTags x =
            x.take g ++ TagNormalizer.stripXmlTags (x.drop (g + n)) := by
          have hfi : ∀ (m : Str) (pl : Unit) (i j : Nat),
              (fun (_ : Str) (_ : Unit) (_ : Nat) => ([] : Str)) m pl i =
              (fun (_ : Str) (_ : Unit) (_ : Nat) => ([] : Str)) m pl j :=
            fun _ _ _ _ => rfl
          rw [TagNormalizer.stripXmlTags,
            jsReplace_of_some xmlTagMatcher_le hfi hn0 hf]
          rw [List.append_nil]
          rfl
        rw [hy] at hcon
        obtain ⟨a, inner, b, heq, hne, hfree⟩ := hcon
        have hlendrop : (x.drop (g + n)).length = x.length - (g + n) := List.length_drop _ _
        have hglen : g + n ≤ x.length := by
          have := xmlTagMatcher_le _ _ _ h1M
          rw [List.length_drop] at this
          omega
        have hihafter : ¬ ContainsXmlTag (TagNormalizer.stripXmlTags (x.drop (g + n))) := by
          refine ih (x.drop (g + n)).length ?_ _ le_rfl
          omega
        rcases List.append_eq_append_iff.mp heq with hcase | hcase
        · obtain ⟨k, hk1, hk2⟩ := hcase
          exact hihafter ⟨k, inner, b, hk2, hne, hfree⟩
        · obtain ⟨k, hk1, hk2⟩ := hcase
          cases k with
          | nil =>
            rw [List.nil_append] at hk2
            exact hihafter ⟨[], inner, b, by rw [List.nil_append]; exact hk2.symm, hne, hfree⟩
          | cons c k₂ =>
            rw [List.cons_append] at hk2
            injection hk2 with hk2a hk2b
            subst hk2a
            have hgval : g = a.length + 1 + k₂.length := by
              have := congrArg List.length hk1
              rw [List.length_take, List.length_append, List.length_cons] at this
              omega
            have hj := hgap a.length (by omega)
            have hxdecomp : x = a ++ '<' :: (k₂ ++ x.drop g) := by
              conv_lhs => rw [← List.take_append_drop g x]
              rw [hk1, List.append_assoc, List.cons_append]
            rw [hxdecomp, List.drop_left] at hj
            obtain ⟨n₂, u₂, hsome⟩ := @xmlTagMatcher_of_gt (k₂ ++ x.drop g)
              (by
                rw [hdropg]
                simp)
              (by
                cases k₂ with
                | nil =>
                  rw [List.nil_append, hdropg, List.cons_append, List.head?_cons]
                  intro hcc
                  cases hcc
                | cons c₂ k₃ =>
                  rw [List.cons_append, List.head?_cons]
                  cases inner with
                  | nil => exact absurd rfl hne
                  | cons i₀ inn =>
                    rw [List.cons_append] at hk2b
                    injection hk2b with hb1 hb2
                    subst hb1
                    intro hcc
                    exact hfree i₀ (List.mem_cons_self _ _) (by injection hcc))
              (by
                rw [hdropg]
                refine List.mem_append_right _ ?_
                rw [List.cons_append]
                exact List.mem_cons_of_mem _
                  (List.mem_append_right _ (List.mem_cons_self _ _)))
            rw [hj] at hsome
            cases hsome
  intro x
  exact H x.length x le_rfl


/-! ## The consolidation pass emits only clean spans -/

theorem consolidateMatcher_le : ∀ (t : Str) (n : Nat) (c : Str),
    TagNormalizer.consolidateMatcher t = some (n, c) → n ≤ t.length := by
  intro t n c h
  obtain ⟨rest, after, ht, hsp, hn⟩ := consolidateMatcher_some h
  obtain ⟨hre, -⟩ := splitOnFirst_sound hsp
  rw [ht, hre]
  simp only [List.length_cons, List.length_append]
  simp
  omega

theorem no_brace_prefix {w : Str} (hw : ∀ c ∈ w, c ≠ '\x7d') (z : Str) :
    ∀ i, i < w.length → (['\x7d', '\x7d'] : Str).isPrefixOf ((w ++ z).drop i) = false := by
  induction w with
  | nil =>
    intro i hi
    exact absurd hi (by simp)
  | cons c w' ih =>
    intro i hi
    cases i with
    | zero =>
      rw [List.drop_zero, List.cons_append]
      have hc : c ≠ '\x7d' := hw c (List.mem_cons_self _ _)
      have hbeq : ('\x7d' == c) = false := by
        simp only [beq_eq_false_iff_ne, ne_eq]
        exact fun hcc => hc hcc.symm
      rw [List.isPrefixOf, hbeq, Bool.false_and]
    | succ j =>
      rw [List.cons_append, List.drop_succ_cons]
      exact ih (fun d hd => hw d (List.mem_cons_of_mem _ hd)) j (by simpa using hi)


theorem consolidateTags_spanClean : ∀ (x : Str), SpanClean (TagNormalizer.consolidateTags x) := by
  have H : ∀ N, ∀ x : Str, x.length ≤ N → SpanClean (TagNormalizer.consolidateTags x) := by
    intro N
    induction N using Nat.strong_induction_on with
    | h N ih =>
      intro x hxN
      cases hf : findFirstM TagNormalizer.consolidateMatcher x with
      | none =>
        unfold TagNormalizer.consolidateTags
        rw [jsReplace_of_none hf]
        intro a rest v b hy hsplit
        exfalso
        have hnone := findFirstM_none hf a.length
        rw [hy, List.drop_left] at hnone
        obtain ⟨hre, -⟩ := splitOnFirst_sound hsplit
        obtain ⟨n₂, c₂, hsome⟩ := @consolidateMatcher_of_occ rest v b
          (by rw [hre, List.append_assoc]; rfl)
        rw [hnone] at hsome
        cases hsome
      | some p =>
        obtain ⟨g, n, content⟩ := p
        obtain ⟨h1M, hgle, hgap⟩ := findFirstM_some hf
        obtain ⟨rest₀, after₀, hdropg, hsp, hn⟩ := consolidateMatcher_some h1M
        obtain ⟨hre₀, -⟩ := splitOnFirst_sound hsp
        have hn0 : n ≠ 0 := by omega
        have hglen : g + n ≤ x.length := by
          have := consolidateMatcher_le _ _ _ h1M
          rw [List.length_drop] at this
          omega
        have hfi : ∀ (m : Str) (c : Str) (i j : Nat),
            (fun (_ : Str) (c : Str) (_ : Nat) =>
              '\x7b' :: '\x7b' :: (TagNormalizer.stripBraces (TagNormalizer.stripXmlTags c) ++
                ['\x7d', '\x7d'])) m c i =
            (fun (_ : Str) (c : Str) (_ : Nat) =>
              '\x7b' :: '\x7b' :: (TagNormalizer.stripBraces (TagNormalizer.stripXmlTags c) ++
                ['\x7d', '\x7d'])) m c j := fun _ _ _ _ => rfl
        have hy0 : TagNormalizer.consolidateTags x =
            x.take g ++ ('\x7b' :: '\x7b' ::
              (TagNormalizer.stripBraces (TagNormalizer.stripXmlTags content) ++
                ['\x7d', '\x7d'])) ++
              TagNormalizer.consolidateTags (x.drop (g + n)) := by
          unfold TagNormalizer.consolidateTags
          rw [jsReplace_of_some consolidateMatcher_le hfi hn0 hf]
        have hxdec : x = x.take g ++ '\x7b' :: '\x7b' ::
            (content ++ '\x7d' :: '\x7d' :: after₀) := by
          conv_lhs => rw [← List.take_append_drop g x]
          rw [hdropg, hre₀, List.append_assoc]
          rfl
        have hvbrace := stripBraces_braceFree (TagNormalizer.stripXmlTags content)
        have hvtag := stripBraces_tagFree (stripXmlTags_tagFree content)
        have hspan' : SpanClean (TagNormalizer.consolidateTags (x.drop (g + n))) := by
          refine ih (x.drop (g + n)).length ?_ _ le_rfl
          rw [List.length_drop]
          omega
        set clean := TagNormalizer.stripBraces (TagNormalizer.stripXmlTags content) with hcleandef
        set Y := TagNormalizer.consolidateTags (x.drop (g + n)) with hYdef
        clear_value clean Y
        rw [hy0]
        intro a rest v b hy' hsplit'
        have hform : x.take g ++ ('\x7b' :: '\x7b' :: (clean ++ ['\x7d', '\x7d'])) ++ Y =
            x.take g ++ '\x7b' :: '\x7b' :: (clean ++ '\x7d' :: '\x7d' :: Y) := by
          rw [List.append_assoc, List.cons_append, List.cons_append, List.append_assoc]
          rfl
        have hy2 : x.take g ++ '\x7b' :: '\x7b' :: (clean ++ '\x7d' :: '\x7d' :: Y) =
            a ++ '\x7b' :: '\x7b' :: rest := hform.symm.trans hy'
        have hcanon : splitOnFirst ['\x7d', '\x7d'] (clean ++ '\x7d' :: '\x7d' :: Y) =
            some (clean, Y) := by
          have hmin : ∀ i, i < clean.length →
              (['\x7d', '\x7d'] : Str).isPrefixOf
                (((clean ++ ['\x7d', '\x7d']) ++ Y).drop i) = false := by
            intro i hi
            rw [List.append_assoc]
            exact no_brace_prefix (fun c hc => (hvbrace c hc).2) _ i hi
          have h0 := splitOnFirst_of_first (by simp) clean Y hmin
          have hassoc : (clean ++ ['\x7d', '\x7d']) ++ Y = clean ++ '\x7d' :: '\x7d' :: Y := by
            rw [List.append_assoc]
            rfl
          rw [hassoc] at h0
          exact h0
        rcases List.append_eq_append_iff.mp hy2 with ⟨k, hk1, hk2⟩ | ⟨k, hk1, hk2⟩
        · cases k with
          | nil =>
            rw [List.nil_append] at hk2
            injection hk2 with h1 hk2
            injection hk2 with h2 hk2
            subst hk2
            rw [hsplit'] at hcanon
            have := Option.some.inj hcanon
            obtain ⟨rfl, rfl⟩ := Prod.mk.injEq .. ▸ this
            exact ⟨hvtag, hvbrace⟩
          | cons c k₂ =>
            rw [List.cons_append] at hk2
            injection hk2 with h1 hk2
            subst h1
            cases k₂ with
            | nil =>
              rw [List.nil_append] at hk2
              injection hk2 with h2 hk2
              exfalso
              cases hcl : clean with
              | nil =>
                rw [hcl, List.nil_append] at hk2
                injection hk2 with h3 _
                cases h3
              | cons c₀ cl₂ =>
                rw [hcl, List.cons_append] at hk2
                injection hk2 with h3 _
                exact (hvbrace c₀ (by rw [hcl]; exact List.mem_cons_self _ _)).1 h3
            | cons c₂ k₃ =>
              rw [List.cons_append] at hk2
              injection hk2 with h2 hk2
              subst h2
              rcases List.append_eq_append_iff.mp hk2 with ⟨j, hj1, hj2⟩ | ⟨j, hj1, hj2⟩
              · cases j with
                | nil =>
                  rw [List.nil_append] at hj2
                  injection hj2 with h3 _
                  cases h3
                | cons d j₂ =>
                  rw [List.cons_append] at hj2
                  injection hj2 with h3 hj2
                  cases j₂ with
                  | nil =>
                    rw [List.nil_append] at hj2
                    injection hj2 with h4 _
                    cases h4
                  | cons d₂ j₃ =>
                    rw [List.cons_append] at hj2
                    injection hj2 with h4 hj2
                    exact hspan' j₃ rest v b hj2 hsplit'
              · cases j with
                | nil =>
                  rw [List.nil_append] at hj2
                  injection hj2 with h3 _
                  cases h3
                | cons d j₂ =>
                  rw [List.cons_append] at hj2
                  injection hj2 with h3 _
                  exfalso
                  have hdmem : d ∈ clean := by
                    rw [hj1]
                    exact List.mem_append_right _ (List.mem_cons_self _ _)
                  exact (hvbrace d hdmem).1 h3.symm
        · cases k with
          | nil =>
            rw [List.append_nil] at hk1
            rw [List.nil_append] at hk2
            injection hk2 with h1 hk2
            injection hk2 with h2 hk2
            subst hk2
            rw [hsplit'] at hcanon
            have := Option.some.inj hcanon
            obtain ⟨rfl, rfl⟩ := Prod.mk.injEq .. ▸ this
            exact ⟨hvtag, hvbrace⟩
          | cons c k₂ =>
            rw [List.cons_append] at hk2
            injection hk2 with h1 hk2
            subst h1
            exfalso
            cases k₂ with
            | nil =>
              have hgval : g = a.length + 1 := by
                have := congrArg List.length hk1
                rw [List.length_take, List.length_append, List.length_cons,
                  List.length_nil] at this
                omega
              have hj := hgap a.length (by omega)
              have hxdec2 : x = a ++ '\x7b' :: ('\x7b' :: '\x7b' ::
                  (content ++ '\x7d' :: '\x7d' :: after₀)) := by
                conv_lhs => rw [hxdec]
                rw [hk1, List.append_assoc]
                rfl
              rw [hxdec2, List.drop_left] at hj
              obtain ⟨n₂, c₂', hsome⟩ := @consolidateMatcher_of_occ
                ('\x7b' :: (content ++ '\x7d' :: '\x7d' :: after₀))
                ('\x7b' :: content) after₀
                (by rw [List.cons_append])
              rw [hj] at hsome
              cases hsome
            | cons c₂ k₃ =>
              rw [List.cons_append] at hk2
              injection hk2 with h2 hk2
              subst h2
              have hgval : g = a.length + 2 + k₃.length := by
                have := congrArg List.length hk1
                rw [List.length_take, List.length_append, List.length_cons,
                  List.length_cons] at this
                omega
              have hj := hgap a.length (by omega)
              have hxdec2 : x = a ++ '\x7b' :: ('\x7b' :: (k₃ ++ '\x7b' :: '\x7b' ::
                  (content ++ '\x7d' :: '\x7d' :: after₀))) := by
                conv_lhs => rw [hxdec]
                rw [hk1, List.append_assoc]
                rfl
              rw [hxdec2, List.drop_left] at hj
              obtain ⟨n₂, c₂', hsome⟩ := @consolidateMatcher_of_occ
                (k₃ ++ '\x7b' :: '\x7b' :: (content ++ '\x7d' :: '\x7d' :: after₀))
                (k₃ ++ '\x7b' :: '\x7b' :: content) after₀
                (by rw [List.append_assoc, List.cons_append, List.cons_append])
              rw [hj] at hsome
              cases hsome
  intro x
  exact H x.length x le_rfl


theorem normalize_double_eq (xml : Str) :
    TagNormalizer.normalize xml true =
      TagNormalizer.consolidateTags (TagNormalizer.removeDuplicateDelimiters
        (TagNormalizer.repairSplitDelimiters (TagNormalizer.removeNoiseTags xml))) := by
  simp only [TagNormalizer.normalize, if_true]

set_option maxRecDepth 100000 in
/-- Claim C5 counterexample: healing `\x7b\x7b n \x7d\x7d` in double-marker mode
returns it unchanged — the inner content keeps its surrounding whitespace, so
the re-emitted token is not `\x7b\x7b` + trimmed name + `\x7d\x7d` as the claim
requires (`consolidateTags` never trims). -/
theorem normalize_not_trimmed_counterexample :
    TagNormalizer.normalize "\x7b\x7b n \x7d\x7d".toList true = "\x7b\x7b n \x7d\x7d".toList ∧
    jsTrim " n ".toList = "n".toList ∧
    "\x7b\x7b n \x7d\x7d".toList ≠
      ("\x7b\x7b".toList ++ jsTrim " n ".toList ++ "\x7d\x7d".toList) := by
  refine ⟨?_, by decide, by decide⟩
  have h0 := normalize_double_eq "\x7b\x7b n \x7d\x7d".toList
  have h1 : TagNormalizer.removeNoiseTags "\x7b\x7b n \x7d\x7d".toList =
      "\x7b\x7b n \x7d\x7d".toList := by decide
  have h2 : TagNormalizer.repairSplitDelimiters "\x7b\x7b n \x7d\x7d".toList =
      "\x7b\x7b n \x7d\x7d".toList := by decide
  have h3 : TagNormalizer.consolidateTags "\x7b\x7b n \x7d\x7d".toList =
      "\x7b\x7b n \x7d\x7d".toList := by decide
  have hdup : TagNormalizer.removeDuplicateDelimiters "\x7b\x7b n \x7d\x7d".toList =
      "\x7b\x7b n \x7d\x7d".toList := rfl
  rw [h0, h1, h2, hdup, h3]

set_option maxRecDepth 100000 in
/-- C5 (amended): after healing in double-marker mode, every span delimited by
the two-character open marker and the first following two-character close
marker contains no complete inline markup tag and no stray marker character:
each such span is exactly a re-emitted token whose inner content is the
original content with all markup and marker characters stripped (but not
trimmed).  In particular a part containing `\x7b\x7bna` + inline markup +
`me\x7d\x7d` heals to a literal `\x7b\x7bname\x7d\x7d` with no intervening
markup. -/
theorem normalize_double_consolidation_spec :
    (∀ xml : Str, SpanClean (TagNormalizer.normalize xml true)) ∧
    TagNormalizer.normalize "\x7b\x7bna<w:r>me\x7d\x7d".toList true =
      "\x7b\x7bname\x7d\x7d".toList := by
  constructor
  · intro xml
    rw [normalize_double_eq]
    exact consolidateTags_spanClean _
  · have h0 := normalize_double_eq "\x7b\x7bna<w:r>me\x7d\x7d".toList
    have h1 : TagNormalizer.removeNoiseTags "\x7b\x7bna<w:r>me\x7d\x7d".toList =
        "\x7b\x7bna<w:r>me\x7d\x7d".toList := by decide
    have h2 : TagNormalizer.repairSplitDelimiters "\x7b\x7bna<w:r>me\x7d\x7d".toList =
        "\x7b\x7bna<w:r>me\x7d\x7d".toList := by decide
    have h3 : TagNormalizer.consolidateTags "\x7b\x7bna<w:r>me\x7d\x7d".toList =
        "\x7b\x7bname\x7d\x7d".toList := by decide
    have hdup : TagNormalizer.removeDuplicateDelimiters "\x7b\x7bna<w:r>me\x7d\x7d".toList =
        "\x7b\x7bna<w:r>me\x7d\x7d".toList := rfl
    rw [h0, h1, h2, hdup, h3]

end AiStudio
